import Mathlib

/-!
# aah build tool (`aah/build.go`)

A shallow embedding of `buildApp`, `generateSource` and `checkAndGetAppDeps`
of `aah/build.go`, with the program analysis operations they call
(`FindTypeByEmbeddedType`, `CreateImportPaths`), and the properties of the
natural-language specification proved about them.

Go strings are modelled by `String`; every separator the code searches for is
ASCII, so working on characters instead of UTF-8 bytes changes no result.
Go maps are modelled by association lists holding the entries in the order a
run iterates them; that the keys of a map are distinct is a hypothesis where a
property needs it.
-/

namespace Aah

/-! ## Action registry and the missing-action report (`buildApp`, lines 57-69) -/

/-- The inner map of the registry: action name to the integer usage marker. -/
abbrev ActionMap := List (String × Int)

/-- The registry `prg.RegisteredActions`, a map of maps: handler name to the
actions configured for it. -/
abbrev Registry := List (String × ActionMap)

/-- The call `fmt.Sprintf("%s.%s", c, a)`. -/
def sprintfHandlerAction (c a : String) : String :=
  c ++ "." ++ a

/-- The body of the inner loop (lines 61-63): one registry pair appended to
`missingActions` when its marker is 1 and its action is not a default action. -/
def reportAction (IsDefaultAction : String → Bool) (c : String)
    (missingActions : List String) (av : String × Int) : List String :=
  if av.2 = 1 ∧ IsDefaultAction av.1 = false then
    missingActions ++ [sprintfHandlerAction c av.1]
  else
    missingActions

/-- The loops of lines 58-65: `missingActions` starts empty and the registry is
ranged over, handler by handler and action by action. `IsDefaultAction` is
`router.IsDefaultAction`, a function of the framework. -/
def missingActions (IsDefaultAction : String → Bool) (registeredActions : Registry) :
    List String :=
  registeredActions.foldl
    (fun acc cm => cm.2.foldl (reportAction IsDefaultAction cm.1) acc) []

/-- The entries one handler contributes, as a filter followed by a map. -/
def handlerEntries (IsDefaultAction : String → Bool) (cm : String × ActionMap) : List String :=
  (cm.2.filter (fun av => decide (av.2 = 1 ∧ IsDefaultAction av.1 = false))).map
    (fun av => sprintfHandlerAction cm.1 av.1)

/-! ## Go library functions used by the code -/

/-- The scan of `strings.Split` for a non-empty separator: `skip` counts the
characters of a matched separator still to pass over, `cur` holds the piece
being read, reversed. -/
def splitScan (sep : List Char) : Nat → List Char → List Char → List (List Char)
  | _, cur, [] => [cur.reverse]
  | skip + 1, cur, _ :: cs => splitScan sep skip cur cs
  | 0, cur, c :: cs =>
    if sep.isPrefixOf (c :: cs) then
      cur.reverse :: splitScan sep (sep.length - 1) [] cs
    else
      splitScan sep 0 (c :: cur) cs

/-- The function `strings.Split(s, sep)`: the pieces of `s` between the
non-overlapping occurrences of `sep`, found left to right; with an empty `sep`
the characters of `s`. -/
def Split (s sep : String) : List String :=
  if sep.data = [] then s.data.map (fun c => String.mk [c])
  else (splitScan sep.data 0 [] s.data).map String.mk

/-- The function `strings.Join(elems, sep)`. -/
def Join (elems : List String) (sep : String) : String :=
  match elems with
  | [] => ""
  | e :: es => es.foldl (fun acc x => acc ++ sep ++ x) e

/-- The call `strings.Replace(s, old, new, -1)` for a non-empty `old`: every
non-overlapping occurrence of `old`, found left to right, becomes `new`. -/
def Replace (s old new : String) : String :=
  Join (Split s old) new

/-- The predicate `unicode.IsSpace`. -/
def isSpace (c : Char) : Bool :=
  c.toNat ∈ [0x09, 0x0A, 0x0B, 0x0C, 0x0D, 0x20, 0x85, 0xA0, 0x1680, 0x2028, 0x2029,
    0x202F, 0x205F, 0x3000] || (0x2000 ≤ c.toNat && c.toNat ≤ 0x200A)

/-- The function `strings.TrimSpace`. -/
def TrimSpace (s : String) : String :=
  String.mk (((s.data.dropWhile isSpace).reverse.dropWhile isSpace).reverse)

/-- An instance of `ess.IsStrEmpty`, a function of the essentials library that
the embedding of the build takes from the world: a string is empty when
nothing is left of it once trimmed. The concrete runs use this instance. -/
def essIsStrEmpty (v : String) : Bool :=
  (TrimSpace v).data.length == 0

/-! ## Runs: what a function does to the world, and how it ends -/

/-- A Go `error` value, seen through its `Error()` method. -/
structure GoError where
  Error : String
deriving DecidableEq

/-- A command handed to `execCmd(gocmd, args)`: the argument list. -/
abbrev Cmd := List String

/-- The project configuration `*config.Config`, through the lookups the code makes. -/
structure Config where
  StringDefault : String → String → String
  StringList : String → List String
  BoolDefault : String → Bool → Bool

/-- A parameter of a method: `Name` and the `Type.Name` the template prints. -/
structure ParameterDeclaration where
  Name : String
  TypeName : String
deriving DecidableEq

/-- A method of a type: `Name` and `Parameters`. -/
structure MethodDeclaration where
  Name : String
  Parameters : List ParameterDeclaration
deriving DecidableEq

/-- A reference to an embedded type, as written in the embedding type: without
a package qualifier, or qualified with the import path of its package. -/
inductive EmbeddedRef where
  | unqualified (name : String)
  | qualified (importPath : String) (name : String)
deriving DecidableEq

/-- A declared type: the import path of its package, its local name, the types
it embeds and its methods, in source order. -/
structure TypeDeclaration where
  ImportPath : String
  Name : String
  EmbeddedTypes : List EmbeddedRef
  Methods : List MethodDeclaration
deriving DecidableEq

/-- The map handed to the template by `generateSource` (lines 106-114). -/
structure TemplateArgs where
  AahVersion : String
  AppImportPath : String
  AppVersion : String
  AppBuildDate : String
  AppBinaryName : String
  AppControllers : List TypeDeclaration
  AppImportPaths : List (String × String)
deriving DecidableEq

/-- What a run does that can be observed from outside, in order. `logInfo` and
`logError` hold the operands of the logging call (the format first, for the
formatted calls). -/
inductive Event where
  | logInfo (operands : List String)
  | logError (operands : List String)
  | process
  | deleteFiles (files : List String)
  | mkDirAll (dir : String)
  | renderTmpl (templateSource : String) (templateArgs : TemplateArgs)
  | writeFile (file : String) (content : String)
  | execCmd (args : Cmd)
deriving DecidableEq

/-- How a call ends: it returns a value, or `log.Fatal` / `log.Fatalf` ends the
process with the given operands. -/
inductive Result (α : Type) where
  | returned (value : α)
  | fatal (operands : List String)
deriving DecidableEq

/-- A run of a function: the events in order and the way it ends. -/
structure Run (α : Type) where
  trace : List Event
  result : Result α
deriving DecidableEq

/-- Sequencing of two parts of a function: the second part runs when the first
returned, after the events of the first. -/
def Run.andThen {α β : Type} (r : Run α) (k : α → Run β) : Run β :=
  match r.result with
  | Result.returned v => ⟨r.trace ++ (k v).trace, (k v).result⟩
  | Result.fatal ops => ⟨r.trace, Result.fatal ops⟩

/-- The commands a trace executed, in order. -/
def commandsOf : List Event → List Cmd
  | [] => []
  | Event.execCmd args :: es => args :: commandsOf es
  | _ :: es => commandsOf es

/-- The program `prg` that `loadProgram` returns, through what `buildApp` uses
of it: the registry and the two analysis methods. -/
structure Program where
  RegisteredActions : Registry
  FindTypeByEmbeddedType : String → List TypeDeclaration
  CreateImportPaths : List TypeDeclaration → List (String × String)

/-- Everything outside `aah/build.go` that the code consults: the go tool, the
file system, the framework packages and the other files of the tool. The go
tool and the import-path lookup answer according to the commands run before
(`go get` changes what exists). -/
structure World where
  execCmd : List Cmd → Cmd → Except GoError String
  IsImportPathExists : List Cmd → String → Bool
  IsStrEmpty : String → Bool
  IsDefaultAction : String → Bool
  RegisteredActions : Registry
  AppBaseDir : String
  AppImportPath : String
  AppName : String
  Version : String
  aahImportPath : String
  filepathJoin : List String → String
  filepathBase : String → String
  pathJoin : List String → String
  loadProgram : String → List String → Registry → Program × List GoError
  Process : Program → Program
  getAppVersion : String → Config → String
  getBuildDate : String
  createAppBinaryName : Config → String
  IsFileExists : String → Bool
  MkDirAll : String → Option GoError
  renderTmpl : String → TemplateArgs → String
  WriteFile : String → String → Option GoError

/-! ## `checkAndGetAppDeps` (lines 152-194) -/

/-- The argument list of `go get pkg` (line 181). -/
def goGetArgs (pkg : String) : Cmd :=
  ["get", pkg]

/-- The loop of lines 180-185: `go get` for each package in turn, after the
commands `hist`; the first error ends the loop and is the result. -/
def goGetAll (w : World) : List Cmd → List String → List Event × Option GoError
  | _, [] => ([], none)
  | hist, pkg :: pkgs =>
    match w.execCmd hist (goGetArgs pkg) with
    | Except.error err => ([Event.execCmd (goGetArgs pkg)], some err)
    | Except.ok _ =>
      let r := goGetAll w (hist ++ [goGetArgs pkg]) pkgs
      (Event.execCmd (goGetArgs pkg) :: r.1, r.2)

/-- The two replacements of lines 164-165 on one line of the output. -/
def cleanLine (line : String) : String :=
  let line := Replace (Replace line "]" "") "[" ""
  Replace (Replace line "\r" " ") "\n" " "

/-- The loop of lines 171-176: the packages of the cleaned line for which
`ess.IsImportPathExists` is false, in the order of the line. -/
def notExistsPkgs (w : World) (hist : List Cmd) (line : String) : List String :=
  (Split line " ").foldl
    (fun acc pkg => if w.IsImportPathExists hist pkg = false then acc ++ [pkg] else acc) []

/-- The loop over the lines of the output (lines 163-193), after the commands
`hist`. -/
def checkLines (w : World) (cfg : Config) : List Cmd → List String → Run (Option GoError)
  | _, [] => ⟨[], Result.returned none⟩
  | hist, line :: lines =>
    let line := cleanLine line
    if w.IsStrEmpty line then
      ⟨[], Result.returned none⟩
    else
      let pkgs := notExistsPkgs w hist line
      if cfg.BoolDefault "build.go_get" true && decide (pkgs.length > 0) then
        let got := goGetAll w hist pkgs
        match got.2 with
        | some err =>
          ⟨Event.logInfo ["Getting application dependencies ..."] :: got.1,
            Result.returned (some err)⟩
        | none =>
          let rest := checkLines w cfg (hist ++ commandsOf got.1) lines
          ⟨Event.logInfo ["Getting application dependencies ..."] :: got.1 ++ rest.trace,
            rest.result⟩
      else if pkgs.length > 0 then
        ⟨[Event.logError ["Below application dependencies are not exists, " ++
            "enable 'build.go_get=true' in 'aah.project' for auto fetch"]],
          Result.fatal ["\n", Join pkgs "\n"]⟩
      else
        checkLines w cfg hist lines

/-- The argument list of the `go list` query (lines 153-154). -/
def goListArgs (w : World) (appImportPath : String) : Cmd :=
  ["list", "-f", "\x7b\x7b.Imports\x7d\x7d", w.pathJoin [appImportPath, "app", "..."]]

/-- The function `checkAndGetAppDeps(appImportPath, cfg)`, called after the
commands `hist`. The result is the returned `error` (`none` for `nil`). -/
def checkAndGetAppDeps (w : World) (hist : List Cmd) (appImportPath : String) (cfg : Config) :
    Run (Option GoError) :=
  let args := goListArgs w appImportPath
  match w.execCmd hist args with
  | Except.error err =>
    ⟨[Event.execCmd args,
        Event.logError ["unable to get application dependencies: %s", err.Error]],
      Result.returned none⟩
  | Except.ok output =>
    let lines := Split (TrimSpace output) "\r\n"
    let rest := checkLines w cfg (hist ++ [args]) lines
    ⟨Event.execCmd args :: rest.trace, rest.result⟩

/-! ## `generateSource` (lines 131-145) and `buildApp` (lines 28-129) -/

/-- The constant `aahMainTemplate` (lines 200-267), the text of the generated `aah.go`. -/
def aahMainTemplate : String :=
  "// aah framework v\x7b\x7b.AahVersion\x7d\x7d - https://aahframework.org\n" ++
  "// FILE: aah.go\n" ++
  "// GENERATED CODE - DO NOT EDIT\n" ++
  "\n" ++
  "package main\n" ++
  "\n" ++
  "import (\n" ++
  "\t\"flag\"\n" ++
  "\t\"fmt\"\n" ++
  "\t\"reflect\"\n" ++
  "\n" ++
  "\t\"aahframework.org/aah\"\n" ++
  "\t\"aahframework.org/config\"\n" ++
  "\t\"aahframework.org/essentials\"\n" ++
  "\t\"aahframework.org/log\"\x7b\x7b range $k, $v := $.AppImportPaths \x7d\x7d\n" ++
  "\t\x7b\x7b$v\x7d\x7d \"\x7b\x7b$k\x7d\x7d\"\x7b\x7b end \x7d\x7d\n" ++
  ")\n" ++
  "\n" ++
  "var (\n" ++
  "\tAppBinaryName = \"\x7b\x7b.AppBinaryName\x7d\x7d\"\n" ++
  "\tAppVersion = \"\x7b\x7b.AppVersion\x7d\x7d\"\n" ++
  "\tAppBuildDate = \"\x7b\x7b.AppBuildDate\x7d\x7d\"\n" ++
  "\t_ = reflect.Invalid\n" ++
  ")\n" ++
  "\n" ++
  "func main() \x7b\n" ++
  "\t// Defining flags\n" ++
  "\tversion := flag.Bool(\"version\", false, \"Display application version and build date.\")\n" ++
  "\tconfigPath := flag.String(\"config\", \"\", \"Absolute path of external config file.\")\n" ++
  "\tflag.Parse()\n" ++
  "\n" ++
  "\t// display application information\n" ++
  "\tif *version \x7b\n" ++
  "\t\tfmt.Printf(\"%-12s: %s\\n\", \"Binary Name\", AppBinaryName)\n" ++
  "\t\tfmt.Printf(\"%-12s: %s\\n\", \"Version\", AppVersion)\n" ++
  "\t\tfmt.Printf(\"%-12s: %s\\n\", \"Build Date\", AppBuildDate)\n" ++
  "\t\treturn\n" ++
  "\t\x7d\n" ++
  "\n" ++
  "\taah.Init(\"\x7b\x7b.AppImportPath\x7d\x7d\")\n" ++
  "\n" ++
  "\t// Loading externally supplied config file\n" ++
  "\tif !ess.IsStrEmpty(*configPath) \x7b\n" ++
  "\t\texternalConfig, err := config.LoadFile(*configPath)\n" ++
  "\t\tif err != nil \x7b\n" ++
  "\t\t\tlog.Fatalf(\"Unable to load external config: %s\", *configPath)\n" ++
  "\t\t\x7d\n" ++
  "\n" ++
  "\t\taah.MergeAppConfig(externalConfig)\n" ++
  "\t\x7d\n" ++
  "\n" ++
  "\t// Adding all the controllers which refers 'aah.Controller' directly\n" ++
  "\t// or indirectly from app/controllers/** \x7b\x7b range $i, $c := .AppControllers \x7d\x7d\n" ++
  "\taah.AddController((*\x7b\x7bindex $.AppImportPaths .ImportPath\x7d\x7d.\x7b\x7b.Name\x7d\x7d)(nil),\n" ++
  "\t  []*aah.MethodInfo\x7b\n" ++
  "\t    \x7b\x7b range .Methods \x7d\x7d&aah.MethodInfo\x7b\n" ++
  "\t      Name: \"\x7b\x7b.Name\x7d\x7d\",\n" ++
  "\t      Parameters: []*aah.ParameterInfo\x7b \x7b\x7b range .Parameters \x7d\x7d\n" ++
  "\t        &aah.ParameterInfo\x7bName: \"\x7b\x7b.Name\x7d\x7d\", Type: reflect.TypeOf((*\x7b\x7b.Type.Name\x7d\x7d)(nil))\x7d,\x7b\x7b end \x7d\x7d\n" ++
  "\t      \x7d,\n" ++
  "\t    \x7d,\n" ++
  "\t    \x7b\x7b end \x7d\x7d\n" ++
  "\t  \x7d)\n" ++
  "\t\x7b\x7b end \x7d\x7d\n" ++
  "\n" ++
  "  aah.Start()\n" ++
  "\x7d\n"

/-- The function `generateSource(dir, filename, templateSource, templateArgs)`.
The permission arguments of `MkDirAll` and `WriteFile` are constants and are
left out of the events. -/
def generateSource (w : World) (dir filename templateSource : String)
    (templateArgs : TemplateArgs) : Run Unit :=
  let made : Run Unit :=
    if w.IsFileExists dir = false then
      match w.MkDirAll dir with
      | some err => ⟨[Event.mkDirAll dir], Result.fatal [err.Error]⟩
      | none => ⟨[Event.mkDirAll dir], Result.returned ()⟩
    else
      ⟨[], Result.returned ()⟩
  made.andThen fun _ =>
    let file := w.filepathJoin [dir, filename]
    let content := w.renderTmpl templateSource templateArgs
    match w.WriteFile file content with
    | some err =>
      ⟨[Event.renderTmpl templateSource templateArgs, Event.writeFile file content],
        Result.fatal ["aah '%s' file write error: %s", filename, err.Error]⟩
    | none =>
      ⟨[Event.renderTmpl templateSource templateArgs, Event.writeFile file content],
        Result.returned ()⟩

/-- The loop of lines 47-50: the messages of the errors, in order. -/
def errMsgs (errs : List GoError) : List String :=
  errs.foldl (fun acc e => acc ++ [e.Error]) []

/-- The report of lines 57-69: one `log.Error` call when `missingActions` is
not empty, nothing otherwise. -/
def reportMissingActions (w : World) (prg : Program) : List Event :=
  let missing := missingActions w.IsDefaultAction prg.RegisteredActions
  if missing.length > 0 then
    [Event.logError
      ["Following actions are configured in 'routes.conf', however not implemented in Controller:\n\t",
        Join missing "\n\t"]]
  else
    []

/-- The `go build` argument list of lines 79-98. -/
def goBuildArgs (w : World) (buildCfg : Config) (appBinary : String) : Cmd :=
  let buildArgs := ["build"]
  let buildArgs := buildArgs ++ buildCfg.StringList "build.flags"
  let ldflags := buildCfg.StringDefault "build.ldflags" ""
  let buildArgs :=
    if w.IsStrEmpty ldflags = false then buildArgs ++ ["-ldflags", ldflags] else buildArgs
  let tags := buildCfg.StringDefault "build.tags" ""
  let buildArgs :=
    if w.IsStrEmpty tags = false then buildArgs ++ ["-tags", tags] else buildArgs
  let buildArgs := buildArgs ++ ["-o", appBinary]
  buildArgs ++ [w.pathJoin [w.AppImportPath, "app"]]

/-- Lines 71-128 of `buildApp`: everything after the missing-action report, for
the processed program `prg`. The result is the pair `(appBinary, nil)`. -/
def buildFromControllers (w : World) (buildCfg : Config) (prg : Program) :
    Run (String × Option GoError) :=
  let appBaseDir := w.AppBaseDir
  let appImportPath := w.AppImportPath
  let appCodeDir := w.filepathJoin [appBaseDir, "app"]
  let appName := buildCfg.StringDefault "name" w.AppName
  let appControllers := prg.FindTypeByEmbeddedType (w.aahImportPath ++ ".Controller")
  let appImportPaths := prg.CreateImportPaths appControllers
  let appVersion := w.getAppVersion appBaseDir buildCfg
  let appBuildDate := w.getBuildDate
  let appBinary := w.createAppBinaryName buildCfg
  let appBinaryName := w.filepathBase appBinary
  let buildArgs := goBuildArgs w buildCfg appBinary
  let appMainGoFile := w.filepathJoin [appCodeDir, "aah.go"]
  let cleaning : Run Unit :=
    ⟨[Event.logInfo ["Cleaning %s", appMainGoFile], Event.logInfo ["Cleaning %s", appBinary],
        Event.deleteFiles [appMainGoFile, appBinary]], Result.returned ()⟩
  cleaning.andThen fun _ =>
    (generateSource w appCodeDir "aah.go" aahMainTemplate
      { AahVersion := w.Version, AppImportPath := appImportPath, AppVersion := appVersion,
        AppBuildDate := appBuildDate, AppBinaryName := appBinaryName,
        AppControllers := appControllers, AppImportPaths := appImportPaths }).andThen fun _ =>
    let deps := checkAndGetAppDeps w [] appImportPath buildCfg
    let checked : Run Unit :=
      match deps.result with
      | Result.returned none => ⟨deps.trace, Result.returned ()⟩
      | Result.returned (some err) => ⟨deps.trace, Result.fatal [err.Error]⟩
      | Result.fatal ops => ⟨deps.trace, Result.fatal ops⟩
    checked.andThen fun _ =>
      match w.execCmd (commandsOf deps.trace) buildArgs with
      | Except.error err => ⟨[Event.execCmd buildArgs], Result.fatal [err.Error]⟩
      | Except.ok _ =>
        ⟨[Event.execCmd buildArgs,
            Event.logInfo ["Build successful for '%s' [%s].", appName, appImportPath]],
          Result.returned (appBinary, none)⟩

/-- The function `buildApp(buildCfg)`. -/
def buildApp (w : World) (buildCfg : Config) : Run (String × Option GoError) :=
  let appBaseDir := w.AppBaseDir
  let appImportPath := w.AppImportPath
  let appCodeDir := w.filepathJoin [appBaseDir, "app"]
  let appControllersPath := w.filepathJoin [appCodeDir, "controllers"]
  let appName := buildCfg.StringDefault "name" w.AppName
  let starting := Event.logInfo ["Starting build for '%s' [%s]", appName, appImportPath]
  let excludes := buildCfg.StringList "build.ast_excludes"
  let registeredActions := w.RegisteredActions
  let loaded := w.loadProgram appControllersPath excludes registeredActions
  let errs := loaded.2
  if errs.length > 0 then
    ⟨[starting], Result.fatal [Join (errMsgs errs) "\n"]⟩
  else
    let prg := w.Process loaded.1
    let rest := buildFromControllers w buildCfg prg
    ⟨starting :: Event.process :: reportMissingActions w prg ++ rest.trace, rest.result⟩

/-! ## The embedding resolver (`prg.FindTypeByEmbeddedType`)

`buildApp` calls the method at line 72; its body is in another file of the
tool. -/

/-- The symbol table: the declared types, in declaration order. -/
abbrev SymbolTable := List TypeDeclaration

/-- The qualified name of a declared type: import path and local name. -/
def TypeDeclaration.QualifiedName (t : TypeDeclaration) : String :=
  t.ImportPath ++ "." ++ t.Name

/-- Modelled from the spec: the name resolution of `FindTypeByEmbeddedType`,
whose body is not in `aah/build.go`. A reference without a package qualifier
is resolved within the package of the embedding type, and is left unresolved
when that package declares no type of that name; a qualified reference names a
type of the package it gives, declared in the table or not. -/
def resolveEmbedded (table : SymbolTable) (t : TypeDeclaration) : EmbeddedRef → Option String
  | EmbeddedRef.unqualified name =>
    if table.any (fun d => decide (d.ImportPath = t.ImportPath ∧ d.Name = name)) then
      some (t.ImportPath ++ "." ++ name)
    else
      none
  | EmbeddedRef.qualified importPath name => some (importPath ++ "." ++ name)

/-- Modelled from the spec: whether one of the embedded names of `t` resolves,
by qualified name match, to a member of the set (part of the resolver, whose
body is not in `aah/build.go`). -/
def embedsMember (table : SymbolTable) (members : List String) (t : TypeDeclaration) : Bool :=
  t.EmbeddedTypes.any fun ref =>
    match resolveEmbedded table t ref with
    | some q => decide (q ∈ members)
    | none => false

/-- Modelled from the spec: one scan of all declarations by the resolver, whose
body is not in `aah/build.go`: the qualified names of the declarations that
are not members yet and embed a member. -/
def scanDeclarations (table : SymbolTable) (members : List String) : List String :=
  (table.filter fun t =>
    decide (t.QualifiedName ∉ members) && embedsMember table members t).map
    TypeDeclaration.QualifiedName

/-- Modelled from the spec: the closure loop of the resolver, whose body is not
in `aah/build.go`: scan, add what the scan found, repeat until a scan finds
nothing. `rounds` bounds the number of scans; a scan that finds something
makes a declaration a member for the first time, so as many rounds as there
are declarations are enough (`scanDeclarations_HandlerSet`). -/
def closeMembers (table : SymbolTable) : Nat → List String → List String
  | 0, members => members
  | rounds + 1, members =>
    if scanDeclarations table members = [] then members
    else closeMembers table rounds (members ++ scanDeclarations table members)

/-- Modelled from the spec: the set `HandlerSet` of the resolver, whose body is
not in `aah/build.go`, as the qualified names of its members: the closure
seeded with the base type name `B`. -/
def HandlerSet (table : SymbolTable) (B : String) : List String :=
  closeMembers table table.length [B]

/-- Modelled from the spec: the method `prg.FindTypeByEmbeddedType(B)`, whose
body is not in `aah/build.go`: the declarations of the members of `HandlerSet`,
in declaration order, without `B` itself unless the policy flag `includeBase`
asks for it. The call of line 72 passes the name alone, no flag. -/
def FindTypeByEmbeddedType (table : SymbolTable) (B : String) (includeBase : Bool) :
    List TypeDeclaration :=
  table.filter fun t =>
    decide (t.QualifiedName ∈ HandlerSet table B) && (includeBase || decide (t.QualifiedName ≠ B))

/-- The type `t` embeds the type of qualified name `q` directly: one of its
embedded names resolves to `q`. -/
def EmbedsDirectly (table : SymbolTable) (t : TypeDeclaration) (q : String) : Prop :=
  ∃ ref ∈ t.EmbeddedTypes, resolveEmbedded table t ref = some q

/-- There is an embedding path from the type of qualified name `q` to the base
type `B`: `q` is `B`, or a declaration of that name embeds directly a type
that has such a path. -/
inductive EmbeddingPath (table : SymbolTable) (B : String) : String → Prop where
  | base : EmbeddingPath table B B
  | step (t : TypeDeclaration) (q : String) : t ∈ table → EmbedsDirectly table t q →
      EmbeddingPath table B q → EmbeddingPath table B t.QualifiedName

/-- The base type of the concrete runs. -/
def aahController : String := "aahframework.org/aah.Controller"

/-- A table of three controllers: `App` embeds the base type, `Home` embeds
`App`, and `Plain` embeds a type of another library. -/
def demoTable : SymbolTable :=
  [ { ImportPath := "demo/app/controllers", Name := "App",
      EmbeddedTypes := [EmbeddedRef.qualified "aahframework.org/aah" "Controller"],
      Methods := [] },
    { ImportPath := "demo/app/controllers", Name := "Home",
      EmbeddedTypes := [EmbeddedRef.unqualified "App"],
      Methods := [⟨"Index", []⟩] },
    { ImportPath := "demo/app/controllers", Name := "Plain",
      EmbeddedTypes := [EmbeddedRef.qualified "sync" "Mutex"],
      Methods := [] } ]

/-! ## The import-alias allocator (`prg.CreateImportPaths`)

`buildApp` calls the method at line 73; its body is in another file of the
tool. The map it returns is modelled by the list of its entries, import path
and alias, in insertion order. -/

/-- Modelled from the spec: the lexicographic order in which the allocator,
whose body is not in `aah/build.go`, processes the import paths: character by
character, a proper prefix first. -/
def lexLe : List Char → List Char → Bool
  | [], _ => true
  | _ :: _, [] => false
  | a :: as, b :: bs =>
    if a.toNat < b.toNat then true
    else if b.toNat < a.toNat then false
    else lexLe as bs

/-- Modelled from the spec: the base alias candidate of the allocator, whose
body is not in `aah/build.go`: the last segment of the import path. -/
def lastSegment (importPath : String) : String :=
  String.mk (importPath.data.reverse.takeWhile fun c => c != '/').reverse

/-- Modelled from the spec: the search for a free suffixed alias by the
allocator, whose body is not in `aah/build.go`: the candidate with the suffix
`n`, then `n + 1`, and so on until the alias is not taken. `tries` bounds the
search; more tries than there are taken aliases always find a free one
(`suffixedAlias_fresh`). -/
def suffixedAlias (taken : List String) (candidate : String) : Nat → Nat → String
  | 0, n => candidate ++ Nat.repr n
  | tries + 1, n =>
    if candidate ++ Nat.repr n ∈ taken then suffixedAlias taken candidate tries (n + 1)
    else candidate ++ Nat.repr n

/-- Modelled from the spec: one step of the allocator, whose body is not in
`aah/build.go`: an import path that has an alias keeps it; a new one gets its
last segment, or, when another import path holds that alias, the last segment
with the first numeric suffix from 1 on that is free. -/
def allocateAlias (aliases : List (String × String)) (importPath : String) :
    List (String × String) :=
  if importPath ∈ aliases.map Prod.fst then aliases
  else if lastSegment importPath ∈ aliases.map Prod.snd then
    aliases ++ [(importPath,
      suffixedAlias (aliases.map Prod.snd) (lastSegment importPath) (aliases.length + 1) 1)]
  else
    aliases ++ [(importPath, lastSegment importPath)]

/-- Modelled from the spec: the method `prg.CreateImportPaths(types)`, whose
body is not in `aah/build.go`: the import paths of the types are processed in
lexicographic order, each getting its alias. -/
def CreateImportPaths (types : List TypeDeclaration) : List (String × String) :=
  ((types.map TypeDeclaration.ImportPath).insertionSort
    fun p q => lexLe p.data q.data = true).foldl allocateAlias []

/-- The value of a string of decimal digits read after the value `acc`. -/
def digitsValue (acc : Nat) (cs : List Char) : Nat :=
  cs.foldl (fun acc c => 10 * acc + (c.toNat - 48)) acc

/-- Three controllers in two packages whose import paths end in `ctrl`. -/
def twoCtrlPackages : List TypeDeclaration :=
  [ { ImportPath := "pkg/two/ctrl", Name := "Admin", EmbeddedTypes := [], Methods := [] },
    { ImportPath := "pkg/one/ctrl", Name := "Home", EmbeddedTypes := [], Methods := [] },
    { ImportPath := "pkg/one/ctrl", Name := "User", EmbeddedTypes := [], Methods := [] } ]

/-! ## Definitions used to state the properties, and concrete worlds -/

/-- The world `w` in which the registry of the processed program is `r`,
everything else being as in `w`. -/
def World.withProcessedRegistry (w : World) (r : Registry) : World :=
  { w with Process := fun p => { w.Process p with RegisteredActions := r } }

/-- The errors `loadProgram` returns to `buildApp` (line 45). -/
def loadErrors (w : World) (buildCfg : Config) : List GoError :=
  (w.loadProgram (w.filepathJoin [w.filepathJoin [w.AppBaseDir, "app"], "controllers"])
    (buildCfg.StringList "build.ast_excludes") w.RegisteredActions).2

/-- The program `loadProgram` returns to `buildApp`, after `prg.Process()` (line 55). -/
def processedProgram (w : World) (buildCfg : Config) : Program :=
  w.Process (w.loadProgram (w.filepathJoin [w.filepathJoin [w.AppBaseDir, "app"], "controllers"])
    (buildCfg.StringList "build.ast_excludes") w.RegisteredActions).1

/-- The import paths an output of `go list` names: the fields of the trimmed
output, brackets stripped and line ends taken as spaces, that are not blank. -/
def namedImportPaths (output : String) : List String :=
  (Split (cleanLine (TrimSpace output)) " ").filter (fun pkg => !essIsStrEmpty pkg)

/-- The packages of a line of the output, cleaned as in lines 164-165, for which
`ess.IsImportPathExists` is false after the commands `hist`: one element for
each occurrence in the line, in the order of the line. -/
def missingOccurrences (w : World) (hist : List Cmd) (line : String) : List String :=
  (Split (cleanLine line) " ").filter (fun pkg => !w.IsImportPathExists hist pkg)

/-- The `go get` commands for the first `n` of the packages `pkgs`. -/
def fetched (pkgs : List String) (n : Nat) : List Cmd :=
  (pkgs.take n).map goGetArgs

/-- The event of running `go get pkg`. -/
def goGetEvent (pkg : String) : Event :=
  Event.execCmd (goGetArgs pkg)

/-- A configuration without entries: every lookup gives its default. -/
def emptyConfig : Config :=
  { StringDefault := fun _ d => d, StringList := fun _ => [], BoolDefault := fun _ d => d }

/-- A configuration whose only entry is `build.go_get = false`. -/
def noGoGetConfig : Config :=
  { StringDefault := fun _ d => d, StringList := fun _ => [],
    BoolDefault := fun k d => if k = "build.go_get" then false else d }

/-- A program with one configured action, `Home.Login`, not found by `Process`. -/
def demoProgram : Program :=
  { RegisteredActions := [("Home", [("Login", 1)])],
    FindTypeByEmbeddedType := fun _ => [],
    CreateImportPaths := fun _ => [] }

/-- A world in which nothing fails: every command succeeds with an empty output
and every import path exists. The concrete runs below change one part of it. -/
def demoWorld : World :=
  { execCmd := fun _ _ => Except.ok "",
    IsImportPathExists := fun _ _ => true,
    IsStrEmpty := essIsStrEmpty,
    IsDefaultAction := fun a => decide (a ∈ ["Before", "After", "Finally", "Panic"]),
    RegisteredActions := [("Home", [("Login", 0)])],
    AppBaseDir := "/go/src/demo",
    AppImportPath := "demo",
    AppName := "demo",
    Version := "0.5",
    aahImportPath := "aahframework.org/aah",
    filepathJoin := fun parts => Join parts "/",
    filepathBase := fun p => p,
    pathJoin := fun parts => Join parts "/",
    loadProgram := fun _ _ _ => (demoProgram, []),
    Process := fun p => p,
    getAppVersion := fun _ _ => "1.0",
    getBuildDate := "2017-04-01",
    createAppBinaryName := fun _ => "/go/bin/demo",
    IsFileExists := fun _ => true,
    MkDirAll := fun _ => none,
    renderTmpl := fun _ _ => "",
    WriteFile := fun _ _ => none }

/-- The world in which `go build` fails and everything else succeeds. -/
def buildFailsWorld : World :=
  { demoWorld with
    execCmd := fun _ args =>
      if args.head? = some "build" then Except.error ⟨"exit status 2"⟩ else Except.ok "" }

/-- The world in which two source files do not parse. -/
def parseErrorsWorld : World :=
  { demoWorld with
    loadProgram := fun _ _ _ =>
      (demoProgram, [⟨"a.go:1:1: expected 'package'"⟩, ⟨"b.go:3:7: expected ';'"⟩]) }

/-- The world in which the `go list` query fails. -/
def goListFailsWorld : World :=
  { demoWorld with
    execCmd := fun _ args =>
      if args.head? = some "list" then Except.error ⟨"exit status 1"⟩ else Except.ok "" }

/-- The world in which `go list` prints the imports of two packages, the first
without imports, each on a line ended as the go tool ends it, and every import
path exists. -/
def allAvailableWorld : World :=
  { demoWorld with
    execCmd := fun _ args =>
      if args.head? = some "list" then Except.ok "[]\n[fmt os]\n" else Except.ok "" }

/-- The world in which `go list` prints the imports of two packages, one per
line, both importing the same package that does not exist; a package exists
once `go get` has fetched it. -/
def sharedDependencyWorld : World :=
  { demoWorld with
    execCmd := fun _ args =>
      if args.head? = some "list" then Except.ok "[github.com/acme/lib]\n[github.com/acme/lib]\n"
      else Except.ok "",
    IsImportPathExists := fun hist pkg => decide (goGetArgs pkg ∈ hist) }

/-- The world in which `go list` names two packages that do not exist and the
`go get` of the second fails. -/
def secondGetFailsWorld : World :=
  { demoWorld with
    execCmd := fun _ args =>
      if args.head? = some "list" then Except.ok "[github.com/acme/one github.com/acme/two]"
      else if args = goGetArgs "github.com/acme/two" then Except.error ⟨"exit status 1"⟩
      else Except.ok "",
    IsImportPathExists := fun hist pkg => decide (goGetArgs pkg ∈ hist) }

/-! ## The missing-action report -/

theorem foldl_reportAction (isDef : String → Bool) (c : String) (m : ActionMap)
    (acc : List String) :
    m.foldl (reportAction isDef c) acc = acc ++ handlerEntries isDef (c, m) := by
  induction m generalizing acc with
  | nil => simp [handlerEntries]
  | cons av m ih =>
    rw [List.foldl_cons, ih]
    by_cases h : av.2 = 1 ∧ isDef av.1 = false
    · simp [reportAction, handlerEntries, h]
    · simp [reportAction, handlerEntries, h]

theorem foldl_handlers (isDef : String → Bool) (reg : Registry) (acc : List String) :
    reg.foldl (fun acc cm => cm.2.foldl (reportAction isDef cm.1) acc) acc
      = acc ++ reg.flatMap (handlerEntries isDef) := by
  induction reg generalizing acc with
  | nil => simp
  | cons cm reg ih =>
    rw [List.foldl_cons, ih, foldl_reportAction]
    simp [List.flatMap_cons]

theorem missingActions_eq_flatMap (isDef : String → Bool) (reg : Registry) :
    missingActions isDef reg = reg.flatMap (handlerEntries isDef) := by
  unfold missingActions
  rw [foldl_handlers]
  simp

theorem mem_handlerEntries (isDef : String → Bool) (cm : String × ActionMap) (s : String) :
    s ∈ handlerEntries isDef cm ↔
      ∃ a, (a, 1) ∈ cm.2 ∧ isDef a = false ∧ s = sprintfHandlerAction cm.1 a := by
  unfold handlerEntries
  simp only [List.mem_map, List.mem_filter, decide_eq_true_eq]
  constructor
  · rintro ⟨⟨a, v⟩, ⟨hmem, hv, hd⟩, rfl⟩
    simp only at hv hd
    subst hv
    exact ⟨a, hmem, hd, rfl⟩
  · rintro ⟨a, hmem, hd, rfl⟩
    exact ⟨(a, 1), ⟨hmem, rfl, hd⟩, rfl⟩

theorem mem_missingActions (isDef : String → Bool) (reg : Registry) (s : String) :
    s ∈ missingActions isDef reg ↔
      ∃ c m a, (c, m) ∈ reg ∧ (a, 1) ∈ m ∧ isDef a = false ∧
        s = sprintfHandlerAction c a := by
  rw [missingActions_eq_flatMap, List.mem_flatMap]
  constructor
  · rintro ⟨⟨c, m⟩, hcm, hs⟩
    obtain ⟨a, ha, hd, rfl⟩ := (mem_handlerEntries isDef (c, m) s).1 hs
    exact ⟨c, m, a, hcm, ha, hd, rfl⟩
  · rintro ⟨c, m, a, hcm, ha, hd, rfl⟩
    exact ⟨(c, m), hcm, (mem_handlerEntries isDef (c, m) _).2 ⟨a, ha, hd, rfl⟩⟩

/-- Two lists split at an element that neither left part holds agree part by part. -/
theorem append_cons_inj_of_not_mem {α : Type} (x : α) :
    ∀ (l₁ l₂ r₁ r₂ : List α), x ∉ l₁ → x ∉ l₂ →
      l₁ ++ x :: r₁ = l₂ ++ x :: r₂ → l₁ = l₂ ∧ r₁ = r₂
  | [], [], _, _, _, _, h => by simpa using h
  | [], b :: l₂, _, _, _, h₂, h => by
    simp only [List.nil_append, List.cons_append, List.cons.injEq] at h
    exact absurd (by simp [h.1]) h₂
  | a :: l₁, [], _, _, h₁, _, h => by
    simp only [List.nil_append, List.cons_append, List.cons.injEq] at h
    exact absurd (by simp [h.1]) h₁
  | a :: l₁, b :: l₂, r₁, r₂, h₁, h₂, h => by
    simp only [List.cons_append, List.cons.injEq] at h
    have ih := append_cons_inj_of_not_mem x l₁ l₂ r₁ r₂
      (fun hm => h₁ (List.mem_cons_of_mem _ hm)) (fun hm => h₂ (List.mem_cons_of_mem _ hm)) h.2
    exact ⟨by rw [h.1, ih.1], ih.2⟩

theorem sprintfHandlerAction_data (c a : String) :
    (sprintfHandlerAction c a).data = c.data ++ '.' :: a.data := by
  simp [sprintfHandlerAction, String.data_append]

/-- With no dot in the handler names, `"c.a"` determines `c` and `a`. -/
theorem sprintfHandlerAction_inj (c c' a a' : String)
    (hc : '.' ∉ c.data) (hc' : '.' ∉ c'.data)
    (h : sprintfHandlerAction c a = sprintfHandlerAction c' a') : c = c' ∧ a = a' := by
  have hd := congrArg String.data h
  rw [sprintfHandlerAction_data, sprintfHandlerAction_data] at hd
  have := append_cons_inj_of_not_mem '.' _ _ _ _ hc hc' hd
  exact ⟨String.ext this.1, String.ext this.2⟩

/-- In an association list with distinct keys a key has one value. -/
theorem value_unique {α β : Type} (l : List (α × β)) (hl : (l.map Prod.fst).Nodup)
    (k : α) (v w : β) (hv : (k, v) ∈ l) (hw : (k, w) ∈ l) : v = w := by
  induction l with
  | nil => simp at hv
  | cons p l ih =>
    simp only [List.map_cons, List.nodup_cons, List.mem_map, not_exists, not_and] at hl
    rcases List.mem_cons.1 hv with hv | hv <;> rcases List.mem_cons.1 hw with hw | hw
    · rw [← hv] at hw; exact (Prod.mk.inj hw).2.symm
    · exact absurd (by rw [← hv]) (hl.1 (k, w) hw)
    · exact absurd (by rw [← hw]) (hl.1 (k, v) hv)
    · exact ih hl.2 hv hw

theorem handlerEntries_nodup (isDef : String → Bool) (cm : String × ActionMap)
    (hk : (cm.2.map Prod.fst).Nodup) (hc : '.' ∉ cm.1.data) :
    (handlerEntries isDef cm).Nodup := by
  unfold handlerEntries
  refine List.Nodup.map_on ?_ ((List.Nodup.of_map _ hk).filter _)
  intro x hx y hy hxy
  have hx' := (List.mem_filter.1 hx).1
  have hy' := (List.mem_filter.1 hy).1
  have h1x : x.2 = 1 := by simpa using (of_decide_eq_true (List.mem_filter.1 hx).2).1
  have h1y : y.2 = 1 := by simpa using (of_decide_eq_true (List.mem_filter.1 hy).2).1
  have hfst := (sprintfHandlerAction_inj _ _ _ _ hc hc hxy).2
  exact Prod.ext hfst (by rw [h1x, h1y])

theorem missingActions_nodup (isDef : String → Bool) (reg : Registry)
    (hkeys : (reg.map Prod.fst).Nodup)
    (hakeys : ∀ cm ∈ reg, (cm.2.map Prod.fst).Nodup)
    (hdot : ∀ cm ∈ reg, '.' ∉ cm.1.data) :
    (missingActions isDef reg).Nodup := by
  rw [missingActions_eq_flatMap, List.nodup_flatMap]
  refine ⟨fun cm hcm => handlerEntries_nodup isDef cm (hakeys cm hcm) (hdot cm hcm), ?_⟩
  have hp : List.Pairwise (fun x y : String × ActionMap => x.1 ≠ y.1) reg :=
    List.pairwise_map.1 hkeys
  refine List.Pairwise.imp_of_mem ?_ hp
  intro x y hx hy hne
  show List.Disjoint (handlerEntries isDef x) (handlerEntries isDef y)
  intro s hsx hsy
  obtain ⟨a, _, _, rfl⟩ := (mem_handlerEntries isDef x s).1 hsx
  obtain ⟨a', _, _, he⟩ := (mem_handlerEntries isDef y _).1 hsy
  exact hne (sprintfHandlerAction_inj _ _ _ _ (hdot x hx) (hdot y hy) he).1

/-- A pair the test of line 61 rejects can be taken out of the registry without
changing the report. -/
theorem missingActions_erase (isDef : String → Bool) (pre post : Registry) (c : String)
    (m₁ m₂ : ActionMap) (a : String) (v : Int) (h : ¬ (v = 1 ∧ isDef a = false)) :
    missingActions isDef (pre ++ (c, m₁ ++ (a, v) :: m₂) :: post)
      = missingActions isDef (pre ++ (c, m₁ ++ m₂) :: post) := by
  simp only [missingActions_eq_flatMap, List.flatMap_append, List.flatMap_cons]
  congr 2
  simp [handlerEntries, List.filter_append, List.filter_cons, h]

/-- C1: an action for which `router.IsDefaultAction` is true contributes no
entry to `missingActions`, whatever its usage marker `v` is: the report of a
registry holding the pair `(c, a)` is the report of the registry without it,
and every entry of the report is `"c'.a'"` for a pair of the registry with
marker 1 whose action `a'` is another one than `a`. -/
theorem default_action_exempt (IsDefaultAction : String → Bool) (pre post : Registry)
    (c : String) (m₁ m₂ : ActionMap) (a : String) (v : Int)
    (h : IsDefaultAction a = true) :
    missingActions IsDefaultAction (pre ++ (c, m₁ ++ (a, v) :: m₂) :: post)
        = missingActions IsDefaultAction (pre ++ (c, m₁ ++ m₂) :: post)
      ∧ ∀ s ∈ missingActions IsDefaultAction (pre ++ (c, m₁ ++ (a, v) :: m₂) :: post),
          ∃ c' m' a', (c', m') ∈ pre ++ (c, m₁ ++ (a, v) :: m₂) :: post ∧ (a', 1) ∈ m' ∧
            a' ≠ a ∧ s = sprintfHandlerAction c' a' := by
  refine ⟨missingActions_erase _ _ _ _ _ _ _ _ (by simp [h]), ?_⟩
  intro s hs
  obtain ⟨c', m', a', hcm, ha, hd, rfl⟩ := (mem_missingActions _ _ _).1 hs
  refine ⟨c', m', a', hcm, ha, ?_, rfl⟩
  rintro rfl
  rw [h] at hd
  exact Bool.noConfusion hd

/-- Witness of C1: handler `Home` with the default action `Before` (marker 1)
and the action `Login` (marker 1): the report is the one of the registry
without `Home.Before`, the single entry `"Home.Login"`. -/
theorem default_action_exempt_witness :
    missingActions (fun a : String => decide (a = "Before"))
        [("Home", [("Before", 1), ("Login", 1)])]
        = missingActions (fun a : String => decide (a = "Before")) [("Home", [("Login", 1)])]
      ∧ missingActions (fun a : String => decide (a = "Before")) [("Home", [("Login", 1)])]
        = ["Home.Login"] :=
  ⟨(default_action_exempt (fun a : String => decide (a = "Before")) [] [] "Home" []
      [("Login", 1)] "Before" 1 (by decide)).1,
    by decide⟩

/-- C2: in a registry whose handler and action names hold no dot (and whose
keys are distinct, as those of a Go map are), a pair `(c, a)` with marker 1 and
a non-default action has `"c.a"` exactly once in `missingActions`; a pair with
another marker has no entry: `"c.a"` is absent from the report, and taking the
pair out of the registry leaves the report unchanged. -/
theorem missing_action_reported_once (IsDefaultAction : String → Bool) (reg : Registry)
    (hkeys : (reg.map Prod.fst).Nodup)
    (hakeys : ∀ cm ∈ reg, (cm.2.map Prod.fst).Nodup)
    (hdot : ∀ cm ∈ reg, '.' ∉ cm.1.data ∧ ∀ av ∈ cm.2, '.' ∉ av.1.data)
    (c : String) (m : ActionMap) (a : String) (v : Int)
    (hcm : (c, m) ∈ reg) (hav : (a, v) ∈ m) :
    (v = 1 → IsDefaultAction a = false →
        (missingActions IsDefaultAction reg).count (sprintfHandlerAction c a) = 1)
      ∧ (v ≠ 1 →
        (missingActions IsDefaultAction reg).count (sprintfHandlerAction c a) = 0
        ∧ ∀ pre post m₁ m₂, reg = pre ++ (c, m₁ ++ (a, v) :: m₂) :: post →
            missingActions IsDefaultAction reg
              = missingActions IsDefaultAction (pre ++ (c, m₁ ++ m₂) :: post)) := by
  have hnd := missingActions_nodup IsDefaultAction reg hkeys hakeys (fun cm h => (hdot cm h).1)
  refine ⟨?_, ?_⟩
  · rintro rfl hd
    exact List.count_eq_one_of_mem hnd
      ((mem_missingActions _ _ _).2 ⟨c, m, a, hcm, hav, hd, rfl⟩)
  · intro hv
    refine ⟨?_, ?_⟩
    · rw [List.count_eq_zero]
      intro hmem
      obtain ⟨c', m', a', hcm', ha', _, he⟩ := (mem_missingActions _ _ _).1 hmem
      obtain ⟨rfl, rfl⟩ :=
        sprintfHandlerAction_inj _ _ _ _ (hdot _ hcm).1 (hdot _ hcm').1 he
      have hm : m = m' := value_unique reg hkeys c m m' hcm hcm'
      subst hm
      exact hv (value_unique m (hakeys _ hcm) a v 1 hav ha')
    · rintro pre post m₁ m₂ rfl
      exact missingActions_erase _ _ _ _ _ _ _ _ (fun h => hv h.1)

/-- Witness of C2: the registry entry `Home.Login` with marker 1 yields exactly
one `"Home.Login"`, and the entry `Home.Index` with marker 0 yields none. -/
theorem missing_action_reported_once_witness :
    sprintfHandlerAction "Home" "Login" = "Home.Login"
      ∧ (missingActions (fun _ => false) [("Home", [("Login", 1), ("Index", 0)])]).count
          (sprintfHandlerAction "Home" "Login") = 1
      ∧ (missingActions (fun _ => false) [("Home", [("Login", 1), ("Index", 0)])]).count
          (sprintfHandlerAction "Home" "Index") = 0 :=
  ⟨by decide,
    (missing_action_reported_once (fun _ => false) [("Home", [("Login", 1), ("Index", 0)])]
      (by decide) (by decide) (by decide) "Home" [("Login", 1), ("Index", 0)] "Login" 1
      (by decide) (by decide)).1 rfl rfl,
    ((missing_action_reported_once (fun _ => false) [("Home", [("Login", 1), ("Index", 0)])]
      (by decide) (by decide) (by decide) "Home" [("Login", 1), ("Index", 0)] "Index" 0
      (by decide) (by decide)).2 (by decide)).1⟩

/-! ## `checkAndGetAppDeps` -/

theorem notExistsPkgs_foldl (w : World) (hist : List Cmd) (toks acc : List String) :
    toks.foldl
        (fun acc pkg => if w.IsImportPathExists hist pkg = false then acc ++ [pkg] else acc) acc
      = acc ++ toks.filter (fun pkg => !w.IsImportPathExists hist pkg) := by
  induction toks generalizing acc with
  | nil => simp
  | cons t toks ih =>
    rw [List.foldl_cons, ih]
    cases h : w.IsImportPathExists hist t <;> simp [h]

theorem notExistsPkgs_eq (w : World) (hist : List Cmd) (line : String) :
    notExistsPkgs w hist (cleanLine line) = missingOccurrences w hist line := by
  unfold notExistsPkgs missingOccurrences
  rw [notExistsPkgs_foldl]
  simp

theorem commandsOf_goGetEvents (pkgs : List String) :
    commandsOf (pkgs.map goGetEvent) = pkgs.map goGetArgs := by
  induction pkgs with
  | nil => rfl
  | cons p ps ih => simp [goGetEvent, commandsOf, ← ih]

/-- When every `go get` succeeds, the loop runs one for each package, in order. -/
theorem goGetAll_ok (w : World) (pkgs : List String) : ∀ (hist : List Cmd),
    (∀ i pkg, pkgs[i]? = some pkg →
      ∃ out, w.execCmd (hist ++ fetched pkgs i) (goGetArgs pkg) = Except.ok out) →
    goGetAll w hist pkgs = (pkgs.map goGetEvent, none) := by
  induction pkgs with
  | nil => intro hist _; rfl
  | cons p ps ih =>
    intro hist h
    obtain ⟨out, hout⟩ := h 0 p (by simp)
    simp only [fetched, List.take_zero, List.map_nil, List.append_nil] at hout
    have hrest := ih (hist ++ [goGetArgs p]) (by
      intro i pkg hi
      have := h (i + 1) pkg (by simpa using hi)
      simpa [fetched] using this)
    simp only [goGetAll, hout, hrest, List.map_cons, goGetEvent]

/-- When the `go get` of the package at index `k` is the first to fail, the
loop runs the commands up to that one and its result is that error. -/
theorem goGetAll_fail (w : World) (pkgs : List String) : ∀ (hist : List Cmd) (k : Nat)
    (pkg : String) (err : GoError), pkgs[k]? = some pkg →
    (∀ i p, i < k → pkgs[i]? = some p →
      ∃ out, w.execCmd (hist ++ fetched pkgs i) (goGetArgs p) = Except.ok out) →
    w.execCmd (hist ++ fetched pkgs k) (goGetArgs pkg) = Except.error err →
    goGetAll w hist pkgs = ((pkgs.take (k + 1)).map goGetEvent, some err) := by
  induction pkgs with
  | nil => intro hist k pkg err hk; simp at hk
  | cons p ps ih =>
    intro hist k pkg err hk hbefore hfail
    cases k with
    | zero =>
      simp only [List.getElem?_cons_zero, Option.some.injEq] at hk
      subst hk
      simp only [fetched, List.take_zero, List.map_nil, List.append_nil] at hfail
      simp [goGetAll, hfail, goGetEvent]
    | succ k =>
      obtain ⟨out, hout⟩ := hbefore 0 p (Nat.succ_pos k) (by simp)
      simp only [fetched, List.take_zero, List.map_nil, List.append_nil] at hout
      have hrest := ih (hist ++ [goGetArgs p]) k pkg err (by simpa using hk)
        (by
          intro i q hi hq
          have := hbefore (i + 1) q (Nat.succ_lt_succ hi) (by simpa using hq)
          simpa [fetched] using this)
        (by simpa [fetched] using hfail)
      simp only [goGetAll, hout, hrest, List.take_succ_cons, List.map_cons, goGetEvent]

/-- When the `go list` query fails, `checkAndGetAppDeps` logs the error and
returns `nil`. -/
theorem checkAndGetAppDeps_list_error (w : World) (hist : List Cmd) (appImportPath : String)
    (cfg : Config) (err : GoError)
    (h : w.execCmd hist (goListArgs w appImportPath) = Except.error err) :
    checkAndGetAppDeps w hist appImportPath cfg =
      ⟨[Event.execCmd (goListArgs w appImportPath),
          Event.logError ["unable to get application dependencies: %s", err.Error]],
        Result.returned none⟩ := by
  simp [checkAndGetAppDeps, h]

/-- C4, the run that contradicts the claim: the `go list` command fails with
`exit status 1` and `checkAndGetAppDeps` returns `nil`, not an error; the one
thing it does with the error is to log it. -/
theorem go_list_failure_returns_nil :
    goListFailsWorld.execCmd [] (goListArgs goListFailsWorld "demo")
        = Except.error ⟨"exit status 1"⟩
      ∧ checkAndGetAppDeps goListFailsWorld [] "demo" emptyConfig =
        ⟨[Event.execCmd (goListArgs goListFailsWorld "demo"),
            Event.logError ["unable to get application dependencies: %s", "exit status 1"]],
          Result.returned none⟩ :=
  ⟨rfl, checkAndGetAppDeps_list_error goListFailsWorld [] "demo" emptyConfig
    ⟨"exit status 1"⟩ rfl⟩

/-- Every character of a piece of `splitScan` is one of the piece being read or
of the text still to scan. -/
theorem splitScan_chars (sep : List Char) : ∀ (s : List Char) (skip : Nat) (cur : List Char),
    ∀ piece ∈ splitScan sep skip cur s, ∀ c ∈ piece, c ∈ cur ∨ c ∈ s := by
  intro s
  induction s with
  | nil =>
    intro skip cur piece hp c hc
    have : piece = cur.reverse := by
      cases skip <;> simpa [splitScan] using hp
    subst this
    exact Or.inl (List.mem_reverse.1 hc)
  | cons x xs ih =>
    intro skip cur piece hp c hc
    cases skip with
    | succ k =>
      simp only [splitScan] at hp
      rcases ih k cur piece hp c hc with h | h
      · exact Or.inl h
      · exact Or.inr (List.mem_cons_of_mem _ h)
    | zero =>
      simp only [splitScan] at hp
      split at hp
      · rcases List.mem_cons.1 hp with hp | hp
        · subst hp
          exact Or.inl (List.mem_reverse.1 hc)
        · rcases ih _ [] piece hp c hc with h | h
          · exact absurd h (List.not_mem_nil _)
          · exact Or.inr (List.mem_cons_of_mem _ h)
      · rcases ih 0 (x :: cur) piece hp c hc with h | h
        · rcases List.mem_cons.1 h with h | h
          · exact Or.inr (h ▸ List.mem_cons_self _ _)
          · exact Or.inl h
        · exact Or.inr (List.mem_cons_of_mem _ h)

/-- The characters of a field of a line are characters of the line. -/
theorem Split_space_chars (s pkg : String) (h : pkg ∈ Split s " ") :
    ∀ c ∈ pkg.data, c ∈ s.data := by
  have hsep : (" " : String).data = [' '] := rfl
  unfold Split at h
  rw [hsep, if_neg (by simp)] at h
  obtain ⟨piece, hpiece, rfl⟩ := List.mem_map.1 h
  intro c hc
  rcases splitScan_chars [' '] s.data 0 [] piece hpiece c hc with h | h
  · exact absurd h (List.not_mem_nil _)
  · exact h

/-- A text without the first character of the separator is one piece. -/
theorem splitScan_no_sep (c₀ : Char) (sep : List Char) : ∀ (s cur : List Char), c₀ ∉ s →
    splitScan (c₀ :: sep) 0 cur s = [cur.reverse ++ s] := by
  intro s
  induction s with
  | nil => intro cur _; simp [splitScan]
  | cons x xs ih =>
    intro cur h
    have hx : c₀ ≠ x := fun e => h (e ▸ List.mem_cons_self _ _)
    have hxs : c₀ ∉ xs := fun e => h (List.mem_cons_of_mem _ e)
    have hpre : (c₀ :: sep).isPrefixOf (x :: xs) = false := by
      simp [List.isPrefixOf, hx]
    simp only [splitScan, hpre, Bool.false_eq_true, if_false]
    rw [ih (x :: cur) hxs]
    simp

/-- An output without carriage return is a single line for line 162. -/
theorem Split_crlf_single (s : String) (h : '\r' ∉ s.data) : Split s "\r\n" = [s] := by
  have hsep : ("\r\n" : String).data = ['\r', '\n'] := rfl
  unfold Split
  rw [hsep, if_neg (by simp), splitScan_no_sep '\r' ['\n'] s.data [] h]
  simp

theorem TrimSpace_chars (s : String) : ∀ c ∈ (TrimSpace s).data, c ∈ s.data := by
  intro c hc
  unfold TrimSpace at hc
  have h₁ := List.mem_reverse.1 hc
  have h₂ := (List.dropWhile_sublist isSpace).subset h₁
  have h₃ := List.mem_reverse.1 h₂
  exact (List.dropWhile_sublist isSpace).subset h₃

/-- A string that is empty once trimmed holds white space only. -/
theorem essIsStrEmpty_blank (s : String) (h : essIsStrEmpty s = true) :
    ∀ c ∈ s.data, isSpace c = true := by
  unfold essIsStrEmpty TrimSpace at h
  simp only [beq_iff_eq, List.length_eq_zero, List.reverse_eq_nil_iff] at h
  have hall := List.dropWhile_eq_nil_iff.1 h
  have hnil : List.dropWhile isSpace s.data = [] := by
    by_contra hne
    have hhead := List.head_dropWhile_not isSpace s.data hne
    have := hall _ (List.mem_reverse.2 (List.head_mem hne))
    rw [this] at hhead
    exact Bool.noConfusion hhead
  exact List.dropWhile_eq_nil_iff.1 hnil

/-- A string of white space only is empty once trimmed. -/
theorem essIsStrEmpty_of_blank (s : String) (h : ∀ c ∈ s.data, isSpace c = true) :
    essIsStrEmpty s = true := by
  unfold essIsStrEmpty TrimSpace
  rw [List.dropWhile_eq_nil_iff.2 h]
  rfl

/-- The loop of lines 180-185 starts with the `go get` of the first package. -/
theorem goGetAll_head (w : World) (hist : List Cmd) (pkg : String) (pkgs : List String) :
    goGetEvent pkg ∈ (goGetAll w hist (pkg :: pkgs)).1 := by
  unfold goGetAll
  split <;> simp [goGetEvent]

/-- The run of the loop of lines 163-193 on a single line: when it returns `nil`
and has run no `go get`, every field of a line that is not blank exists. -/
theorem checkLines_single_nil (w : World) (cfg : Config) (hist : List Cmd) (line : String)
    (hproc : w.IsStrEmpty (cleanLine line) = false)
    (hnil : (checkLines w cfg hist [line]).result = Result.returned none)
    (hnoget : ∀ pkg, goGetEvent pkg ∉ (checkLines w cfg hist [line]).trace) :
    ∀ pkg ∈ Split (cleanLine line) " ", w.IsImportPathExists hist pkg = true := by
  intro pkg hpkg
  by_contra hex
  have hmem : pkg ∈ missingOccurrences w hist line := by
    unfold missingOccurrences
    simp [List.mem_filter, hpkg, hex]
  have hlen : (missingOccurrences w hist line).length > 0 := List.length_pos_of_mem hmem
  obtain ⟨p, ps, hps⟩ := List.exists_cons_of_ne_nil (List.ne_nil_of_mem hmem)
  cases hget : cfg.BoolDefault "build.go_get" true with
  | true =>
    apply hnoget p
    have hhead := goGetAll_head w hist p ps
    have hpos : decide ((p :: ps).length > 0) = true := by simp
    simp only [checkLines, hproc, notExistsPkgs_eq, hget, hps, hpos,
      Bool.and_self, if_true, Bool.false_eq_true, if_false]
    cases hg : (goGetAll w hist (p :: ps)).2 with
    | some err => exact List.mem_cons_of_mem _ hhead
    | none => exact List.mem_cons_of_mem _ (List.mem_append_left _ hhead)
  | false =>
    simp only [checkLines, hproc, notExistsPkgs_eq, hget, hlen, Bool.false_and,
      Bool.false_eq_true, if_false, if_true] at hnil
    exact Result.noConfusion hnil

/-- C8: for every successful output of `go list` with the line ends the go tool
prints (no carriage return), and with `ess.IsStrEmpty` true on blank strings
only: if `checkAndGetAppDeps` returns `nil` and has run no `go get`, all
dependencies are available, that is, every import path the output names
exists. This covers the return of line 168 (the output is one line for the
split of line 162, so the return fires on a blank output, which names no
package) and the return of line 193. -/
theorem early_return_all_available (w : World) (cfg : Config) (hist : List Cmd)
    (appImportPath output : String)
    (hlist : w.execCmd hist (goListArgs w appImportPath) = Except.ok output)
    (hlf : '\r' ∉ output.data)
    (hblank : ∀ s, w.IsStrEmpty s = true → essIsStrEmpty s = true)
    (hnil : (checkAndGetAppDeps w hist appImportPath cfg).result = Result.returned none)
    (hnoget : ∀ pkg, goGetEvent pkg ∉ (checkAndGetAppDeps w hist appImportPath cfg).trace) :
    ∀ pkg ∈ namedImportPaths output,
      w.IsImportPathExists (hist ++ [goListArgs w appImportPath]) pkg = true := by
  have hsplit : Split (TrimSpace output) "\r\n" = [TrimSpace output] :=
    Split_crlf_single _ (fun h => hlf (TrimSpace_chars output _ h))
  have hrun : checkAndGetAppDeps w hist appImportPath cfg =
      ⟨Event.execCmd (goListArgs w appImportPath) ::
          (checkLines w cfg (hist ++ [goListArgs w appImportPath]) [TrimSpace output]).trace,
        (checkLines w cfg (hist ++ [goListArgs w appImportPath]) [TrimSpace output]).result⟩ := by
    simp only [checkAndGetAppDeps, hlist, hsplit]
  rw [hrun] at hnil hnoget
  intro pkg hpkg
  unfold namedImportPaths at hpkg
  obtain ⟨hfield, hnotblank⟩ := List.mem_filter.1 hpkg
  cases hE : w.IsStrEmpty (cleanLine (TrimSpace output)) with
  | true =>
    have hall := essIsStrEmpty_blank _ (hblank _ hE)
    have := essIsStrEmpty_of_blank pkg
      (fun c hc => hall c (Split_space_chars _ pkg hfield c hc))
    rw [this] at hnotblank
    exact absurd hnotblank (by decide)
  | false =>
    exact checkLines_single_nil w cfg _ _ hE hnil
      (fun p hp => hnoget p (List.mem_cons_of_mem _ hp)) pkg hfield

/-- Witness of C8: `go list` prints `"[]\n[fmt os]\n"` and every import path
exists; the function returns `nil` having run the `go list` query only, and
`fmt` and `os`, the import paths the output names, exist. -/
theorem early_return_all_available_witness :
    checkAndGetAppDeps allAvailableWorld [] "demo" emptyConfig =
        ⟨[Event.execCmd (goListArgs allAvailableWorld "demo")], Result.returned none⟩
      ∧ namedImportPaths "[]\n[fmt os]\n" = ["fmt", "os"]
      ∧ ∀ pkg ∈ namedImportPaths "[]\n[fmt os]\n",
          allAvailableWorld.IsImportPathExists ([] ++ [goListArgs allAvailableWorld "demo"]) pkg
            = true :=
  have hrun : checkAndGetAppDeps allAvailableWorld [] "demo" emptyConfig =
      ⟨[Event.execCmd (goListArgs allAvailableWorld "demo")], Result.returned none⟩ := by
    decide
  ⟨hrun, by decide,
    early_return_all_available allAvailableWorld emptyConfig [] "demo" "[]\n[fmt os]\n" rfl
      (by decide) (fun _ h => h) (by rw [hrun])
      (by
        intro pkg hmem
        rw [hrun] at hmem
        simp [goGetEvent, goGetArgs, goListArgs] at hmem)⟩

/-- C9, the run that contradicts the claim: `go list` prints the imports of two
packages on two lines ended by `\n`, both naming `github.com/acme/lib`, which
does not exist. The output is one line for the split at `\r\n`, it names the
one missing path twice, and `go get github.com/acme/lib` is executed twice,
not once. -/
theorem shared_dependency_fetched_twice :
    sharedDependencyWorld.execCmd [] (goListArgs sharedDependencyWorld "demo")
        = Except.ok "[github.com/acme/lib]\n[github.com/acme/lib]\n"
      ∧ emptyConfig.BoolDefault "build.go_get" true = true
      ∧ checkAndGetAppDeps sharedDependencyWorld [] "demo" emptyConfig =
        ⟨[Event.execCmd (goListArgs sharedDependencyWorld "demo"),
            Event.logInfo ["Getting application dependencies ..."],
            Event.execCmd ["get", "github.com/acme/lib"],
            Event.execCmd ["get", "github.com/acme/lib"]],
          Result.returned none⟩
      ∧ (commandsOf (checkAndGetAppDeps sharedDependencyWorld [] "demo" emptyConfig).trace).count
          ["get", "github.com/acme/lib"] = 2 :=
  ⟨rfl, by decide, by decide, by decide⟩

/-- C9, amended: for a processed line of the output (one that is not empty
after cleaning) naming at least one package for which `ess.IsImportPathExists`
is false, with `pkgs` the missing packages of the line, one element for each
occurrence and in the order of the line:
when `build.go_get` is true and every `go get` succeeds, the commands run for
the line are `go get pkg` for each element of `pkgs` in order and nothing else,
and the loop goes on with the next line;
when `build.go_get` is true and the `go get` of the element at index `k` is the
first to fail, the commands run are those of the first `k + 1` elements and the
function returns the error of that command;
when `build.go_get` is false, no command is run and the run ends in `log.Fatal`. -/
theorem fetch_missing_dependencies (w : World) (cfg : Config) (hist : List Cmd)
    (line : String) (lines : List String)
    (hproc : w.IsStrEmpty (cleanLine line) = false)
    (hmiss : ∃ pkg ∈ Split (cleanLine line) " ", w.IsImportPathExists hist pkg = false) :
    (cfg.BoolDefault "build.go_get" true = true →
        ((∀ i pkg, (missingOccurrences w hist line)[i]? = some pkg →
            ∃ out, w.execCmd (hist ++ fetched (missingOccurrences w hist line) i)
              (goGetArgs pkg) = Except.ok out) →
          checkLines w cfg hist (line :: lines) =
            ⟨Event.logInfo ["Getting application dependencies ..."] ::
                (missingOccurrences w hist line).map goGetEvent ++
                (checkLines w cfg
                  (hist ++ (missingOccurrences w hist line).map goGetArgs) lines).trace,
              (checkLines w cfg
                (hist ++ (missingOccurrences w hist line).map goGetArgs) lines).result⟩)
        ∧ (∀ k pkg err, (missingOccurrences w hist line)[k]? = some pkg →
            (∀ i p, i < k → (missingOccurrences w hist line)[i]? = some p →
              ∃ out, w.execCmd (hist ++ fetched (missingOccurrences w hist line) i)
                (goGetArgs p) = Except.ok out) →
            w.execCmd (hist ++ fetched (missingOccurrences w hist line) k) (goGetArgs pkg)
              = Except.error err →
            checkLines w cfg hist (line :: lines) =
              ⟨Event.logInfo ["Getting application dependencies ..."] ::
                  ((missingOccurrences w hist line).take (k + 1)).map goGetEvent,
                Result.returned (some err)⟩))
      ∧ (cfg.BoolDefault "build.go_get" true = false →
        checkLines w cfg hist (line :: lines) =
          ⟨[Event.logError ["Below application dependencies are not exists, " ++
              "enable 'build.go_get=true' in 'aah.project' for auto fetch"]],
            Result.fatal ["\n", Join (missingOccurrences w hist line) "\n"]⟩) := by
  have hlen : (missingOccurrences w hist line).length > 0 := by
    obtain ⟨pkg, hmem, hex⟩ := hmiss
    apply List.length_pos_of_mem (a := pkg)
    unfold missingOccurrences
    simp [List.mem_filter, hmem, hex]
  refine ⟨fun hget => ⟨?_, ?_⟩, fun hget => ?_⟩
  · intro hok
    have hall := goGetAll_ok w _ hist hok
    simp only [checkLines, hproc, notExistsPkgs_eq, hget, hlen, hall,
      commandsOf_goGetEvents, decide_True, Bool.and_self, if_true, Bool.false_eq_true,
      if_false, List.cons_append]
  · intro k pkg err hk hbefore hfail
    have hall := goGetAll_fail w _ hist k pkg err hk hbefore hfail
    simp only [checkLines, hproc, notExistsPkgs_eq, hget, hlen, hall,
      decide_True, Bool.and_self, if_true, Bool.false_eq_true, if_false]
  · simp only [checkLines, hproc, notExistsPkgs_eq, hget, hlen,
      decide_True, Bool.and_true, if_true, Bool.false_eq_true, if_false]

/-- Witness of C9: `go list` names `github.com/acme/one` and
`github.com/acme/two`, neither exists, and the `go get` of the second fails:
both commands are run, in order, and the error of the second is returned; with
`build.go_get = false` no command is run and the run ends in `log.Fatal`. -/
theorem fetch_missing_dependencies_witness :
    missingOccurrences secondGetFailsWorld [["list"]]
        "[github.com/acme/one github.com/acme/two]"
        = ["github.com/acme/one", "github.com/acme/two"]
      ∧ checkLines secondGetFailsWorld emptyConfig [["list"]]
          ["[github.com/acme/one github.com/acme/two]"] =
        ⟨Event.logInfo ["Getting application dependencies ..."] ::
            ((missingOccurrences secondGetFailsWorld [["list"]]
              "[github.com/acme/one github.com/acme/two]").take (1 + 1)).map goGetEvent,
          Result.returned (some ⟨"exit status 1"⟩)⟩
      ∧ checkLines secondGetFailsWorld noGoGetConfig [["list"]]
          ["[github.com/acme/one github.com/acme/two]"] =
        ⟨[Event.logError ["Below application dependencies are not exists, " ++
            "enable 'build.go_get=true' in 'aah.project' for auto fetch"]],
          Result.fatal ["\n", Join (missingOccurrences secondGetFailsWorld [["list"]]
            "[github.com/acme/one github.com/acme/two]") "\n"]⟩ :=
  ⟨by decide,
    ((fetch_missing_dependencies secondGetFailsWorld emptyConfig [["list"]]
        "[github.com/acme/one github.com/acme/two]" [] (by decide) (by decide)).1
      (by decide)).2 1 "github.com/acme/two" ⟨"exit status 1"⟩ (by decide)
      (by
        intro i p hi hp
        have hi0 : i = 0 := by omega
        subst hi0
        have hm : missingOccurrences secondGetFailsWorld [["list"]]
            "[github.com/acme/one github.com/acme/two]"
            = ["github.com/acme/one", "github.com/acme/two"] := by decide
        rw [hm] at hp
        simp only [List.getElem?_cons_zero, Option.some.injEq] at hp
        subst hp
        exact ⟨"", rfl⟩)
      rfl,
    (fetch_missing_dependencies secondGetFailsWorld noGoGetConfig [["list"]]
        "[github.com/acme/one github.com/acme/two]" [] (by decide) (by decide)).2
      (by decide)⟩

/-! ## `buildApp` -/

theorem errMsgs_foldl (errs : List GoError) (acc : List String) :
    errs.foldl (fun acc e => acc ++ [e.Error]) acc = acc ++ errs.map GoError.Error := by
  induction errs generalizing acc with
  | nil => simp
  | cons e errs ih => rw [List.foldl_cons, ih]; simp

theorem errMsgs_eq_map (errs : List GoError) : errMsgs errs = errs.map GoError.Error := by
  unfold errMsgs
  rw [errMsgs_foldl]
  simp

/-- The run of `buildApp` when `loadProgram` returned errors. -/
theorem buildApp_parse_errors (w : World) (buildCfg : Config)
    (h : loadErrors w buildCfg ≠ []) :
    buildApp w buildCfg =
      ⟨[Event.logInfo ["Starting build for '%s' [%s]",
          buildCfg.StringDefault "name" w.AppName, w.AppImportPath]],
        Result.fatal [Join ((loadErrors w buildCfg).map GoError.Error) "\n"]⟩ := by
  have hlen : (loadErrors w buildCfg).length > 0 := List.length_pos.2 h
  unfold loadErrors at hlen
  simp only [buildApp, hlen, if_true, errMsgs_eq_map, loadErrors]

/-- The run of `buildApp` when `loadProgram` returned no error. -/
theorem buildApp_no_parse_errors (w : World) (buildCfg : Config)
    (h : loadErrors w buildCfg = []) :
    buildApp w buildCfg =
      ⟨Event.logInfo ["Starting build for '%s' [%s]",
          buildCfg.StringDefault "name" w.AppName, w.AppImportPath] ::
        Event.process :: reportMissingActions w (processedProgram w buildCfg) ++
          (buildFromControllers w buildCfg (processedProgram w buildCfg)).trace,
        (buildFromControllers w buildCfg (processedProgram w buildCfg)).result⟩ := by
  unfold loadErrors at h
  simp only [buildApp, h, List.length_nil, gt_iff_lt, Nat.lt_irrefl, if_false, processedProgram]

theorem goGetAll_withProcessedRegistry (w : World) (r : Registry) (pkgs : List String) :
    ∀ hist, goGetAll (w.withProcessedRegistry r) hist pkgs = goGetAll w hist pkgs := by
  induction pkgs with
  | nil => intro hist; rfl
  | cons p ps ih =>
    intro hist
    have he : (w.withProcessedRegistry r).execCmd = w.execCmd := rfl
    simp only [goGetAll, he, ih]

theorem checkLines_withProcessedRegistry (w : World) (r : Registry) (cfg : Config)
    (lines : List String) :
    ∀ hist, checkLines (w.withProcessedRegistry r) cfg hist lines = checkLines w cfg hist lines := by
  induction lines with
  | nil => intro hist; rfl
  | cons l ls ih =>
    intro hist
    have he : (w.withProcessedRegistry r).IsStrEmpty = w.IsStrEmpty := rfl
    have hn : ∀ line, notExistsPkgs (w.withProcessedRegistry r) hist line
        = notExistsPkgs w hist line := fun _ => rfl
    simp only [checkLines, he, hn, goGetAll_withProcessedRegistry, ih]

theorem checkAndGetAppDeps_withProcessedRegistry (w : World) (r : Registry) (cfg : Config)
    (hist : List Cmd) (appImportPath : String) :
    checkAndGetAppDeps (w.withProcessedRegistry r) hist appImportPath cfg
      = checkAndGetAppDeps w hist appImportPath cfg := by
  have he : (w.withProcessedRegistry r).execCmd = w.execCmd := rfl
  have hg : goListArgs (w.withProcessedRegistry r) appImportPath = goListArgs w appImportPath :=
    rfl
  simp only [checkAndGetAppDeps, he, hg, checkLines_withProcessedRegistry]

/-- The part of `buildApp` after the report does not read the registry. -/
theorem buildFromControllers_withProcessedRegistry (w : World) (buildCfg : Config)
    (r : Registry) (prg : Program) :
    buildFromControllers (w.withProcessedRegistry r) buildCfg
        { prg with RegisteredActions := r }
      = buildFromControllers w buildCfg prg := by
  have hg : ∀ d f t a, generateSource (w.withProcessedRegistry r) d f t a
      = generateSource w d f t a := fun _ _ _ _ => rfl
  have hb : ∀ b, goBuildArgs (w.withProcessedRegistry r) buildCfg b = goBuildArgs w buildCfg b :=
    fun _ => rfl
  have he : (w.withProcessedRegistry r).execCmd = w.execCmd := rfl
  simp only [buildFromControllers, hg, hb, he, checkAndGetAppDeps_withProcessedRegistry]
  rfl

/-- The part of `buildApp` after the report starts with the cleaning of line 102. -/
theorem buildFromControllers_trace_head (w : World) (buildCfg : Config) (prg : Program) :
    ∃ later, (buildFromControllers w buildCfg prg).trace =
      Event.logInfo ["Cleaning %s",
        w.filepathJoin [w.filepathJoin [w.AppBaseDir, "app"], "aah.go"]] :: later := by
  simp only [buildFromControllers, Run.andThen]
  split <;> exact ⟨_, rfl⟩

/-- C3: two runs of `buildApp` that differ only in the registry the processed
program holds, `r₁` with an empty `missingActions` list and `r₂` with a
non-empty one (the parse step passed in both). Neither run ends at the
missing-action step: both go on with the cleaning of line 102 and the same
events `later`, which hold the arguments of `generateSource` (the controllers
and the import paths) and the `go build` argument list, and both end the same
way, with the same binary path when they return. The one difference is the
`log.Error` report of the second run. -/
theorem missing_actions_diagnostic_only (w : World) (buildCfg : Config) (r₁ r₂ : Registry)
    (hload : loadErrors w buildCfg = [])
    (h₁ : missingActions w.IsDefaultAction r₁ = [])
    (h₂ : missingActions w.IsDefaultAction r₂ ≠ []) :
    ∃ later,
      (buildApp (w.withProcessedRegistry r₁) buildCfg).trace =
          Event.logInfo ["Starting build for '%s' [%s]",
            buildCfg.StringDefault "name" w.AppName, w.AppImportPath] ::
          Event.process ::
          Event.logInfo ["Cleaning %s",
            w.filepathJoin [w.filepathJoin [w.AppBaseDir, "app"], "aah.go"]] :: later
      ∧ (buildApp (w.withProcessedRegistry r₂) buildCfg).trace =
          Event.logInfo ["Starting build for '%s' [%s]",
            buildCfg.StringDefault "name" w.AppName, w.AppImportPath] ::
          Event.process ::
          Event.logError
            ["Following actions are configured in 'routes.conf', however not implemented in Controller:\n\t",
              Join (missingActions w.IsDefaultAction r₂) "\n\t"] ::
          Event.logInfo ["Cleaning %s",
            w.filepathJoin [w.filepathJoin [w.AppBaseDir, "app"], "aah.go"]] :: later
      ∧ (buildApp (w.withProcessedRegistry r₂) buildCfg).result
          = (buildApp (w.withProcessedRegistry r₁) buildCfg).result := by
  obtain ⟨later, hlater⟩ :=
    buildFromControllers_trace_head w buildCfg (processedProgram w buildCfg)
  have hrun : ∀ r, buildApp (w.withProcessedRegistry r) buildCfg =
      ⟨Event.logInfo ["Starting build for '%s' [%s]",
          buildCfg.StringDefault "name" w.AppName, w.AppImportPath] ::
        Event.process ::
          reportMissingActions w { processedProgram w buildCfg with RegisteredActions := r } ++
          (buildFromControllers w buildCfg (processedProgram w buildCfg)).trace,
        (buildFromControllers w buildCfg (processedProgram w buildCfg)).result⟩ := by
    intro r
    rw [buildApp_no_parse_errors (w.withProcessedRegistry r) buildCfg hload]
    have hp : processedProgram (w.withProcessedRegistry r) buildCfg
        = { processedProgram w buildCfg with RegisteredActions := r } := rfl
    rw [hp, buildFromControllers_withProcessedRegistry]
    rfl
  have hlen : (missingActions w.IsDefaultAction r₂).length > 0 := List.length_pos.2 h₂
  refine ⟨later, ?_, ?_, ?_⟩
  · rw [hrun r₁, hlater]
    simp [reportMissingActions, h₁]
  · rw [hrun r₂, hlater]
    simp [reportMissingActions, hlen]
  · rw [hrun r₁, hrun r₂]

/-- Witness of C3: the registry `Home.Login` with marker 0 (nothing missing)
against the same entry with marker 1 (`Home.Login` missing): both runs end
the same way, with the binary path `/go/bin/demo`. -/
theorem missing_actions_diagnostic_only_witness :
    missingActions demoWorld.IsDefaultAction [("Home", [("Login", 0)])] = []
      ∧ missingActions demoWorld.IsDefaultAction [("Home", [("Login", 1)])] = ["Home.Login"]
      ∧ (buildApp (demoWorld.withProcessedRegistry [("Home", [("Login", 1)])]) emptyConfig).result
          = (buildApp (demoWorld.withProcessedRegistry [("Home", [("Login", 0)])])
              emptyConfig).result
      ∧ (buildApp (demoWorld.withProcessedRegistry [("Home", [("Login", 1)])]) emptyConfig).result
          = Result.returned ("/go/bin/demo", none) :=
  ⟨by decide, by decide,
    (missing_actions_diagnostic_only demoWorld emptyConfig [("Home", [("Login", 0)])]
      [("Home", [("Login", 1)])] (by decide) (by decide) (by decide)).elim
      (fun _ h => h.2.2),
    by decide⟩

/-- C7, the run that contradicts the claim: `loadProgram` returns no error and
`go build` fails; `buildApp` ends in `log.Fatal` (line 123) although `errs` is
empty. -/
theorem build_failure_fatal_without_parse_errors :
    loadErrors buildFailsWorld emptyConfig = []
      ∧ (buildApp buildFailsWorld emptyConfig).result = Result.fatal ["exit status 2"]
      ∧ ¬ ((∃ ops, (buildApp buildFailsWorld emptyConfig).result = Result.fatal ops)
            ↔ loadErrors buildFailsWorld emptyConfig ≠ []) := by
  have h₁ : loadErrors buildFailsWorld emptyConfig = [] := by decide
  have h₂ : (buildApp buildFailsWorld emptyConfig).result = Result.fatal ["exit status 2"] := by
    decide
  exact ⟨h₁, h₂, fun h => (h.1 ⟨_, h₂⟩) h₁⟩

/-- C7, amended: `buildApp` ends in `log.Fatal` before `prg.Process()` if and
only if `loadProgram` returned at least one error (with no error it can still
end in `log.Fatal` later, at source generation, at the dependency check or at
`go build`). When it does, the run is the starting log line and nothing else,
so `prg.Process`, source generation and `go build` have not run, and the
operand of `log.Fatal` is the messages of all the errors, in their order,
joined by `"\n"`. -/
theorem parse_errors_fatal_before_process (w : World) (buildCfg : Config) :
    (((∃ ops, (buildApp w buildCfg).result = Result.fatal ops)
          ∧ Event.process ∉ (buildApp w buildCfg).trace)
        ↔ loadErrors w buildCfg ≠ [])
      ∧ (loadErrors w buildCfg ≠ [] →
          buildApp w buildCfg =
            ⟨[Event.logInfo ["Starting build for '%s' [%s]",
                buildCfg.StringDefault "name" w.AppName, w.AppImportPath]],
              Result.fatal [Join ((loadErrors w buildCfg).map GoError.Error) "\n"]⟩) := by
  refine ⟨⟨?_, ?_⟩, buildApp_parse_errors w buildCfg⟩
  · rintro ⟨_, hproc⟩ hnil
    apply hproc
    rw [buildApp_no_parse_errors w buildCfg hnil]
    simp
  · intro hne
    rw [buildApp_parse_errors w buildCfg hne]
    exact ⟨⟨_, rfl⟩, by simp⟩

/-- Witness of C7: two files do not parse; the run is the starting log line and
the fatal message holds both errors, in order, one per line. -/
theorem parse_errors_fatal_before_process_witness :
    buildApp parseErrorsWorld emptyConfig =
      ⟨[Event.logInfo ["Starting build for '%s' [%s]", "demo", "demo"]],
        Result.fatal ["a.go:1:1: expected 'package'\nb.go:3:7: expected ';'"]⟩ :=
  ((parse_errors_fatal_before_process parseErrorsWorld emptyConfig).2 (by decide)).trans
    (by decide)

/-! ## The embedding resolver -/

theorem mem_scanDeclarations (table : SymbolTable) (members : List String) (q : String) :
    q ∈ scanDeclarations table members ↔
      ∃ t ∈ table, t.QualifiedName ∉ members ∧ embedsMember table members t = true ∧
        t.QualifiedName = q := by
  simp [scanDeclarations, List.mem_map, List.mem_filter, and_assoc]

theorem embedsMember_iff (table : SymbolTable) (members : List String) (t : TypeDeclaration) :
    embedsMember table members t = true ↔ ∃ q ∈ members, EmbedsDirectly table t q := by
  unfold embedsMember EmbedsDirectly
  rw [List.any_eq_true]
  constructor
  · rintro ⟨ref, href, h⟩
    cases hres : resolveEmbedded table t ref with
    | none => rw [hres] at h; exact absurd h (by simp)
    | some q =>
      rw [hres] at h
      exact ⟨q, of_decide_eq_true h, ref, href, hres⟩
  · rintro ⟨q, hq, ref, href, hres⟩
    refine ⟨ref, href, ?_⟩
    rw [hres]
    exact decide_eq_true hq

theorem subset_closeMembers (table : SymbolTable) (rounds : Nat) :
    ∀ members, members ⊆ closeMembers table rounds members := by
  induction rounds with
  | zero => intro members; exact List.Subset.refl _
  | succ n ih =>
    intro members
    unfold closeMembers
    split
    · exact List.Subset.refl _
    · exact fun q hq => ih _ (List.mem_append_left _ hq)

/-- Every name the closure holds has an embedding path to the base type. -/
theorem closeMembers_sound (table : SymbolTable) (B : String) (rounds : Nat) :
    ∀ members, (∀ q ∈ members, EmbeddingPath table B q) →
      ∀ q ∈ closeMembers table rounds members, EmbeddingPath table B q := by
  induction rounds with
  | zero => intro members h; exact h
  | succ n ih =>
    intro members h
    unfold closeMembers
    split
    · exact h
    · apply ih
      intro q hq
      rcases List.mem_append.1 hq with hq | hq
      · exact h q hq
      · obtain ⟨t, ht, _, hemb, rfl⟩ := (mem_scanDeclarations _ _ _).1 hq
        obtain ⟨q', hq', hdir⟩ := (embedsMember_iff _ _ _).1 hemb
        exact EmbeddingPath.step t q' ht hdir (h q' hq')

/-- The number of declarations that are not members: what a scan that finds
something makes smaller. -/
theorem outside_decreases (table : SymbolTable) (members : List String)
    (h : scanDeclarations table members ≠ []) :
    (table.filter fun t =>
        decide (t.QualifiedName ∉ members ++ scanDeclarations table members)).length
      < (table.filter fun t => decide (t.QualifiedName ∉ members)).length := by
  obtain ⟨q, hq⟩ := List.exists_mem_of_ne_nil _ h
  obtain ⟨t, ht, hnot, _, rfl⟩ := (mem_scanDeclarations _ _ _).1 hq
  have hsplit : (table.filter fun t =>
        decide (t.QualifiedName ∉ members ++ scanDeclarations table members))
      = ((table.filter fun t => decide (t.QualifiedName ∉ members)).filter fun t =>
          decide (t.QualifiedName ∉ scanDeclarations table members)) := by
    rw [List.filter_filter]
    congr 1
    funext u
    simp only [List.mem_append, not_or, Bool.decide_and]
    exact Bool.and_comm _ _
  rw [hsplit, List.length_filter_lt_length_iff_exists]
  exact ⟨t, List.mem_filter.2 ⟨ht, decide_eq_true hnot⟩, by simpa using hq⟩

/-- With as many rounds as there are declarations outside the set, the closure
loop ends on a scan that finds nothing. -/
theorem scanDeclarations_closeMembers (table : SymbolTable) (rounds : Nat) :
    ∀ members,
      (table.filter fun t => decide (t.QualifiedName ∉ members)).length ≤ rounds →
      scanDeclarations table (closeMembers table rounds members) = [] := by
  induction rounds with
  | zero =>
    intro members h
    have hnil : (table.filter fun t => decide (t.QualifiedName ∉ members)) = [] :=
      List.length_eq_zero.1 (Nat.le_zero.1 h)
    unfold closeMembers
    rw [List.eq_nil_iff_forall_not_mem]
    intro q hq
    obtain ⟨t, ht, hnot, _, _⟩ := (mem_scanDeclarations _ _ _).1 hq
    have : t ∈ (table.filter fun t => decide (t.QualifiedName ∉ members)) :=
      List.mem_filter.2 ⟨ht, decide_eq_true hnot⟩
    rw [hnil] at this
    exact absurd this (List.not_mem_nil _)
  | succ n ih =>
    intro members h
    unfold closeMembers
    split
    · assumption
    · rename_i hne
      apply ih
      have := outside_decreases table members hne
      omega

/-- The closure loop of `HandlerSet` reaches its fixed point within its rounds. -/
theorem scanDeclarations_HandlerSet (table : SymbolTable) (B : String) :
    scanDeclarations table (HandlerSet table B) = [] :=
  scanDeclarations_closeMembers table table.length [B] (List.length_filter_le _ _)

/-- The members of `HandlerSet` are the names with an embedding path to `B`. -/
theorem mem_HandlerSet_iff (table : SymbolTable) (B q : String) :
    q ∈ HandlerSet table B ↔ EmbeddingPath table B q := by
  constructor
  · intro h
    refine closeMembers_sound table B table.length [B] ?_ q h
    intro q' hq'
    rw [List.mem_singleton.1 hq']
    exact EmbeddingPath.base
  · intro h
    induction h with
    | base => exact subset_closeMembers table table.length [B] (List.mem_singleton_self B)
    | step t q' ht hdir _ ih =>
      by_contra hnot
      have hscan : t.QualifiedName ∈ scanDeclarations table (HandlerSet table B) :=
        (mem_scanDeclarations _ _ _).2
          ⟨t, ht, hnot, (embedsMember_iff _ _ _).2 ⟨q', ih, hdir⟩, rfl⟩
      rw [scanDeclarations_HandlerSet] at hscan
      exact absurd hscan (List.not_mem_nil _)

/-- The returned declarations: those of the table with an embedding path to
`B`, the declaration of `B` itself among them only when the flag asks for it. -/
theorem mem_FindTypeByEmbeddedType (table : SymbolTable) (B : String) (includeBase : Bool)
    (t : TypeDeclaration) :
    t ∈ FindTypeByEmbeddedType table B includeBase ↔
      t ∈ table ∧ EmbeddingPath table B t.QualifiedName ∧
        (includeBase = true ∨ t.QualifiedName ≠ B) := by
  unfold FindTypeByEmbeddedType
  simp only [List.mem_filter, Bool.and_eq_true, Bool.or_eq_true, decide_eq_true_eq,
    mem_HandlerSet_iff]

/-- C5: for every symbol table that `buildApp` can hand to the resolver (one
parsed from the controllers directory of the application, so none of its
declarations is the base type `B` of the framework), whatever the flag:
a type of the table that embeds `B` directly is in the returned set; a type of
the table that embeds a type `u` of the table that embeds `B` directly is in
the returned set; and no type without an embedding path to `B` is in the
returned set. -/
theorem handler_set_membership (table : SymbolTable) (B : String) (includeBase : Bool)
    (hB : ∀ d ∈ table, d.QualifiedName ≠ B) :
    (∀ t ∈ table, EmbedsDirectly table t B → t ∈ FindTypeByEmbeddedType table B includeBase)
      ∧ (∀ t ∈ table, ∀ u ∈ table, EmbedsDirectly table t u.QualifiedName →
          EmbedsDirectly table u B → t ∈ FindTypeByEmbeddedType table B includeBase)
      ∧ ∀ s : TypeDeclaration, ¬ EmbeddingPath table B s.QualifiedName →
          s ∉ FindTypeByEmbeddedType table B includeBase := by
  refine ⟨?_, ?_, ?_⟩
  · intro t ht hdir
    exact (mem_FindTypeByEmbeddedType _ _ _ _).2
      ⟨ht, EmbeddingPath.step t B ht hdir EmbeddingPath.base, Or.inr (hB t ht)⟩
  · intro t ht u hu htu hub
    exact (mem_FindTypeByEmbeddedType _ _ _ _).2
      ⟨ht, EmbeddingPath.step t _ ht htu (EmbeddingPath.step u B hu hub EmbeddingPath.base),
        Or.inr (hB t ht)⟩
  · intro s hs hmem
    exact hs ((mem_FindTypeByEmbeddedType _ _ _ _).1 hmem).2.1

/-- Witness of C5: in the table of three controllers `App` embeds the base type
and is returned, `Home` embeds `App` and is returned, and `Plain`, which has no
embedding path to the base type, is not. -/
theorem handler_set_membership_witness :
    (⟨"demo/app/controllers", "App",
        [EmbeddedRef.qualified "aahframework.org/aah" "Controller"], []⟩ : TypeDeclaration)
        ∈ FindTypeByEmbeddedType demoTable aahController false
      ∧ (⟨"demo/app/controllers", "Home", [EmbeddedRef.unqualified "App"],
          [⟨"Index", []⟩]⟩ : TypeDeclaration)
        ∈ FindTypeByEmbeddedType demoTable aahController false
      ∧ (⟨"demo/app/controllers", "Plain", [EmbeddedRef.qualified "sync" "Mutex"],
          []⟩ : TypeDeclaration)
        ∉ FindTypeByEmbeddedType demoTable aahController false :=
  ⟨(handler_set_membership demoTable aahController false (by decide)).1 _ (by decide)
      ⟨EmbeddedRef.qualified "aahframework.org/aah" "Controller", by decide, by decide⟩,
    (handler_set_membership demoTable aahController false (by decide)).2.1 _ (by decide)
      ⟨"demo/app/controllers", "App",
        [EmbeddedRef.qualified "aahframework.org/aah" "Controller"], []⟩ (by decide)
      ⟨EmbeddedRef.unqualified "App", by decide, by decide⟩
      ⟨EmbeddedRef.qualified "aahframework.org/aah" "Controller", by decide, by decide⟩,
    (handler_set_membership demoTable aahController false (by decide)).2.2 _
      (fun h => absurd ((mem_HandlerSet_iff _ _ _).2 h) (by decide))⟩

/-! ## The import-alias allocator -/

theorem digitChar_value (k : Nat) (hk : k < 10) : (Nat.digitChar k).toNat - 48 = k := by
  interval_cases k <;> rfl

/-- Reading back the digits `Nat.toDigitsCore` writes gives the number. -/
theorem digitsValue_toDigitsCore (fuel : Nat) : ∀ (n : Nat) (ds : List Char), n < fuel →
    digitsValue 0 (Nat.toDigitsCore 10 fuel n ds) = digitsValue n ds := by
  induction fuel with
  | zero => intro n ds h; omega
  | succ fuel ih =>
    intro n ds h
    have hd : (Nat.digitChar (n % 10)).toNat - 48 = n % 10 :=
      digitChar_value _ (Nat.mod_lt _ (by decide))
    unfold Nat.toDigitsCore
    by_cases h0 : n / 10 = 0
    · simp only [h0, if_true]
      have hn : n % 10 = n := Nat.mod_eq_of_lt (by omega)
      rw [hn] at hd
      simp only [digitsValue, List.foldl_cons, hn, hd, Nat.mul_zero, Nat.zero_add]
    · simp only [h0, if_false]
      rw [ih (n / 10) _ (by omega)]
      have hn : 10 * (n / 10) + n % 10 = n := Nat.div_add_mod n 10
      simp only [digitsValue, List.foldl_cons, hd, hn]

/-- Two numbers with the same decimal rendering are equal. -/
theorem repr_injective (n m : Nat) (h : Nat.repr n = Nat.repr m) : n = m := by
  have hd : Nat.toDigits 10 n = Nat.toDigits 10 m := by
    have := congrArg String.data h
    simpa [Nat.repr, List.asString] using this
  have hn := digitsValue_toDigitsCore (n + 1) n [] (Nat.lt_succ_self n)
  have hm := digitsValue_toDigitsCore (m + 1) m [] (Nat.lt_succ_self m)
  unfold Nat.toDigits at hd
  rw [hd, hm] at hn
  simpa [digitsValue] using hn.symm

theorem suffixed_injective (candidate : String) (n i j : Nat)
    (h : candidate ++ Nat.repr (n + i) = candidate ++ Nat.repr (n + j)) : i = j := by
  have hd := congrArg String.data h
  rw [String.data_append, String.data_append] at hd
  have hr : Nat.repr (n + i) = Nat.repr (n + j) := String.ext (List.append_cancel_left hd)
  have := repr_injective _ _ hr
  omega

/-- A search that ends on a taken alias has found every alias it tried taken. -/
theorem suffixedAlias_taken (taken : List String) (candidate : String) (tries : Nat) :
    ∀ n, suffixedAlias taken candidate tries n ∈ taken →
      ∀ i, i ≤ tries → candidate ++ Nat.repr (n + i) ∈ taken := by
  induction tries with
  | zero =>
    intro n h i hi
    have hi0 : i = 0 := by omega
    subst hi0
    simpa [suffixedAlias] using h
  | succ tries ih =>
    intro n h i hi
    unfold suffixedAlias at h
    by_cases hn : candidate ++ Nat.repr n ∈ taken
    · rw [if_pos hn] at h
      cases i with
      | zero => simpa using hn
      | succ i =>
        have := ih (n + 1) h i (by omega)
        rwa [Nat.add_assoc, Nat.add_comm 1 i] at this
    · rw [if_neg hn] at h
      exact absurd h hn

/-- With more tries than there are taken aliases the search ends on a free one. -/
theorem suffixedAlias_fresh (taken : List String) (candidate : String) (tries n : Nat)
    (h : taken.length ≤ tries) : suffixedAlias taken candidate tries n ∉ taken := by
  intro hmem
  have hall := suffixedAlias_taken taken candidate tries n hmem
  have hnodup : ((List.range (tries + 1)).map fun i => candidate ++ Nat.repr (n + i)).Nodup :=
    List.Nodup.map_on (fun i _ j _ hij => suffixed_injective candidate n i j hij)
      (List.nodup_range _)
  have hsub : ((List.range (tries + 1)).map fun i => candidate ++ Nat.repr (n + i)) ⊆ taken := by
    intro s hs
    obtain ⟨i, hi, rfl⟩ := List.mem_map.1 hs
    exact hall i (Nat.lt_succ_iff.1 (List.mem_range.1 hi))
  have hlen := (List.subperm_of_subset hnodup hsub).length_le
  simp only [List.length_map, List.length_range] at hlen
  omega

/-- In a list of pairs with distinct second components a second component has
one first component. -/
theorem key_unique {α β : Type} (l : List (α × β)) (hl : (l.map Prod.snd).Nodup)
    (k k' : α) (v : β) (hk : (k, v) ∈ l) (hk' : (k', v) ∈ l) : k = k' := by
  induction l with
  | nil => simp at hk
  | cons p l ih =>
    simp only [List.map_cons, List.nodup_cons, List.mem_map, not_exists, not_and] at hl
    rcases List.mem_cons.1 hk with hk | hk <;> rcases List.mem_cons.1 hk' with hk' | hk'
    · rw [← hk] at hk'; exact (Prod.mk.inj hk').1.symm
    · exact absurd (by rw [← hk]) (hl.1 (k', v) hk')
    · exact absurd (by rw [← hk']) (hl.1 (k, v) hk)
    · exact ih hl.2 hk hk'

/-- What one step of the allocator keeps and adds. -/
theorem allocateAlias_spec (aliases : List (String × String)) (importPath : String)
    (hk : (aliases.map Prod.fst).Nodup) (ha : (aliases.map Prod.snd).Nodup) :
    ((allocateAlias aliases importPath).map Prod.fst).Nodup
      ∧ ((allocateAlias aliases importPath).map Prod.snd).Nodup
      ∧ aliases ⊆ allocateAlias aliases importPath
      ∧ importPath ∈ (allocateAlias aliases importPath).map Prod.fst
      ∧ ∀ p ∈ (allocateAlias aliases importPath).map Prod.fst,
          p ∈ aliases.map Prod.fst ∨ p = importPath := by
  unfold allocateAlias
  by_cases h₁ : importPath ∈ aliases.map Prod.fst
  · rw [if_pos h₁]
    exact ⟨hk, ha, List.Subset.refl _, h₁, fun p hp => Or.inl hp⟩
  · rw [if_neg h₁]
    have hfresh := suffixedAlias_fresh (aliases.map Prod.snd) (lastSegment importPath)
      (aliases.length + 1) 1 (by simp)
    by_cases h₂ : lastSegment importPath ∈ aliases.map Prod.snd
    · rw [if_pos h₂]
      refine ⟨?_, ?_, List.subset_append_left _ _, by simp, ?_⟩
      · rw [List.map_append, List.nodup_append]
        exact ⟨hk, by simp, by
          intro a ha₁ ha₂
          simp only [List.map_cons, List.map_nil, List.mem_singleton] at ha₂
          exact h₁ (ha₂ ▸ ha₁)⟩
      · rw [List.map_append, List.nodup_append]
        exact ⟨ha, by simp, by
          intro a ha₁ ha₂
          simp only [List.map_cons, List.map_nil, List.mem_singleton] at ha₂
          exact hfresh (ha₂ ▸ ha₁)⟩
      · intro p hp
        simp only [List.map_append, List.map_cons, List.map_nil, List.mem_append,
          List.mem_singleton] at hp
        exact hp
    · rw [if_neg h₂]
      refine ⟨?_, ?_, List.subset_append_left _ _, by simp, ?_⟩
      · rw [List.map_append, List.nodup_append]
        exact ⟨hk, by simp, by
          intro a ha₁ ha₂
          simp only [List.map_cons, List.map_nil, List.mem_singleton] at ha₂
          exact h₁ (ha₂ ▸ ha₁)⟩
      · rw [List.map_append, List.nodup_append]
        exact ⟨ha, by simp, by
          intro a ha₁ ha₂
          simp only [List.map_cons, List.map_nil, List.mem_singleton] at ha₂
          exact h₂ (ha₂ ▸ ha₁)⟩
      · intro p hp
        simp only [List.map_append, List.map_cons, List.map_nil, List.mem_append,
          List.mem_singleton] at hp
        exact hp

/-- What the allocator keeps and adds over a list of import paths. -/
theorem foldl_allocateAlias_spec (paths : List String) :
    ∀ aliases : List (String × String),
      (aliases.map Prod.fst).Nodup → (aliases.map Prod.snd).Nodup →
      ((paths.foldl allocateAlias aliases).map Prod.fst).Nodup
        ∧ ((paths.foldl allocateAlias aliases).map Prod.snd).Nodup
        ∧ aliases ⊆ paths.foldl allocateAlias aliases
        ∧ (∀ p ∈ paths, p ∈ (paths.foldl allocateAlias aliases).map Prod.fst)
        ∧ ∀ p ∈ (paths.foldl allocateAlias aliases).map Prod.fst,
            p ∈ aliases.map Prod.fst ∨ p ∈ paths := by
  induction paths with
  | nil =>
    intro aliases hk ha
    exact ⟨hk, ha, List.Subset.refl _, fun p hp => absurd hp (List.not_mem_nil _),
      fun p hp => Or.inl hp⟩
  | cons x xs ih =>
    intro aliases hk ha
    obtain ⟨hk₁, ha₁, hsub₁, hx, hkeys₁⟩ := allocateAlias_spec aliases x hk ha
    obtain ⟨hk₂, ha₂, hsub₂, hall, hkeys₂⟩ := ih (allocateAlias aliases x) hk₁ ha₁
    rw [List.foldl_cons]
    refine ⟨hk₂, ha₂, fun e he => hsub₂ (hsub₁ he), ?_, ?_⟩
    · intro p hp
      rcases List.mem_cons.1 hp with rfl | hp
      · obtain ⟨e, he, hfst⟩ := List.mem_map.1 hx
        exact List.mem_map.2 ⟨e, hsub₂ he, hfst⟩
      · exact hall p hp
    · intro p hp
      rcases hkeys₂ p hp with h | h
      · rcases hkeys₁ p h with h | h
        · exact Or.inl h
        · exact Or.inr (h ▸ List.mem_cons_self _ _)
      · exact Or.inr (List.mem_cons_of_mem _ h)

/-- C6: for every list of resolved controllers, the map of `CreateImportPaths`
has an entry for the import path of every controller, holds every import path
once and only import paths of the controllers, and two distinct import paths
never have the same alias. -/
theorem import_alias_map_bijection (types : List TypeDeclaration) :
    (∀ t ∈ types, ∃ a, (t.ImportPath, a) ∈ CreateImportPaths types)
      ∧ ((CreateImportPaths types).map Prod.fst).Nodup
      ∧ (∀ p ∈ (CreateImportPaths types).map Prod.fst, ∃ t ∈ types, t.ImportPath = p)
      ∧ ∀ p q a b, (p, a) ∈ CreateImportPaths types → (q, b) ∈ CreateImportPaths types →
          p ≠ q → a ≠ b := by
  obtain ⟨hk, ha, _, hall, hkeys⟩ := foldl_allocateAlias_spec
    ((types.map TypeDeclaration.ImportPath).insertionSort
      fun p q => lexLe p.data q.data = true) [] List.nodup_nil List.nodup_nil
  refine ⟨?_, hk, ?_, ?_⟩
  · intro t ht
    have hmem : t.ImportPath ∈ (types.map TypeDeclaration.ImportPath).insertionSort
        fun p q => lexLe p.data q.data = true :=
      (List.mem_insertionSort _).2 (List.mem_map_of_mem _ ht)
    obtain ⟨e, he, hfst⟩ := List.mem_map.1 (hall _ hmem)
    exact ⟨e.2, by rw [← hfst]; exact he⟩
  · intro p hp
    rcases hkeys p hp with h | h
    · exact absurd h (List.not_mem_nil _)
    · obtain ⟨t, ht, rfl⟩ := List.mem_map.1 ((List.mem_insertionSort _).1 h)
      exact ⟨t, ht, rfl⟩
  · intro p q a b hp hq hne hab
    subst hab
    exact hne (key_unique _ ha p q a hp hq)

/-- Witness of C6: `pkg/one/ctrl` and `pkg/two/ctrl` both have an entry, with
the aliases `ctrl` and `ctrl1`, which differ. -/
theorem import_alias_map_bijection_witness :
    CreateImportPaths twoCtrlPackages = [("pkg/one/ctrl", "ctrl"), ("pkg/two/ctrl", "ctrl1")]
      ∧ ("ctrl" : String) ≠ "ctrl1" :=
  ⟨by decide,
    (import_alias_map_bijection twoCtrlPackages).2.2.2 "pkg/one/ctrl" "pkg/two/ctrl"
      "ctrl" "ctrl1" (by decide) (by decide) (by decide)⟩

end Aah
